import Mathlib

/-!
Shallow embedding of the DealUpdates CRM pipeline (JavaScript) in Lean 4.

Conventions of the embedding:
* JavaScript strings are Lean `String`s; `trim`, `toLower`, `toUpper` use the
  ASCII behaviour of the Lean core functions (the repository's data is ASCII).
* JavaScript numbers are `ℚ` (the pipeline only performs exact decimal
  arithmetic); `NaN`/`undefined`/`null` number slots are `Option ℚ` with `none`.
* JavaScript `Date` values are `Int` timestamps (only their order is used);
  a nullable date is `Option Int`.
* JavaScript `Map` objects are association lists with `Map.set` semantics
  (replace in place, insert at the end); plain objects used as dictionaries
  are the same.
* `new Date(string)` parsing is implementation-defined in JavaScript, so the
  pipeline is parameterised by an arbitrary date parser `pd : String → Option Int`.
-/

namespace DealUpdates

/-- JS `Map.get` / object indexing on an association list. -/
def jsMapGet {α : Type} (m : List (String × α)) (k : String) : Option α :=
  (m.find? (fun p => p.1 = k)).map (fun p => p.2)

/-- JS `Map.set` / object key assignment: replace the value in place if the
key is present, otherwise append the new entry. -/
def jsMapSet {α : Type} (m : List (String × α)) (k : String) (v : α) :
    List (String × α) :=
  match m with
  | [] => [(k, v)]
  | (k', v') :: rest =>
    if k' = k then (k, v) :: rest else (k', v') :: jsMapSet rest k v

/-- Does `sub` occur as a contiguous substring of `s` (JS `String.includes`)?
Implemented over the character lists. -/
def subAt (sub : List Char) : List Char → Bool
  | [] => sub.isEmpty
  | c :: rest => sub.isPrefixOf (c :: rest) || subAt sub rest

/-- JS `s.includes(sub)`. -/
def strIncludes (s sub : String) : Bool :=
  subAt sub.data s.data

/-- JS `String.prototype.trim` over a character list (ASCII whitespace). -/
def jsTrimChars (cs : List Char) : List Char :=
  ((cs.dropWhile Char.isWhitespace).reverse.dropWhile Char.isWhitespace).reverse

/-- JS `s.trim()`.  Implemented structurally so that it evaluates inside the
kernel (the core `String.trim` is built on well-founded `Substring` loops). -/
def jsTrim (s : String) : String :=
  ⟨jsTrimChars s.data⟩

/-- JS `s.toLowerCase()` (ASCII). -/
def jsToLower (s : String) : String :=
  ⟨s.data.map Char.toLower⟩

/-- JS `s.toUpperCase()` (ASCII). -/
def jsToUpper (s : String) : String :=
  ⟨s.data.map Char.toUpper⟩

/-- JS `s.startsWith(p)`. -/
def jsStartsWith (s p : String) : Bool :=
  p.data.isPrefixOf s.data

/-- JS `s.split(' ')`: split on every single space character, keeping empty
pieces. -/
def jsSplitOnSpaceAux (acc : List Char) : List Char → List String
  | [] => [⟨acc.reverse⟩]
  | c :: rest =>
    if c = ' ' then ⟨acc.reverse⟩ :: jsSplitOnSpaceAux [] rest
    else jsSplitOnSpaceAux (c :: acc) rest

/-- See `jsSplitOnSpaceAux`. -/
def jsSplitOnSpace (s : String) : List String :=
  jsSplitOnSpaceAux [] s.data

/-- Collapse runs of whitespace to a single space: JS `replace(/\s+/g, ' ')`. -/
def collapseWs : List Char → List Char
  | [] => []
  | [c] => if c.isWhitespace then [' '] else [c]
  | c :: d :: rest =>
    if c.isWhitespace then
      if d.isWhitespace then collapseWs (d :: rest)
      else ' ' :: collapseWs (d :: rest)
    else c :: collapseWs (d :: rest)

/-- domain.js `normalizeString`: trim, lowercase, collapse internal
whitespace runs to one space. -/
def normalizeString (s : String) : String :=
  ⟨collapseWs (jsToLower (jsTrim s)).data⟩

/-- domain.js `makeDealKey`. -/
def makeDealKey (dealName dealOwner : String) : String :=
  normalizeString dealName ++ "||" ++ normalizeString dealOwner

/-- JS `[...new Set(l)]`: remove duplicates keeping the first occurrence of
each element (`seen` is the set built so far). -/
def jsSetDedupAux (seen : List String) : List String → List String
  | [] => []
  | x :: xs =>
    if x ∈ seen then jsSetDedupAux seen xs
    else x :: jsSetDedupAux (x :: seen) xs

/-- See `jsSetDedupAux`. -/
def jsSetDedup (l : List String) : List String :=
  jsSetDedupAux [] l

/-- Lexicographic `≤` on character lists (JS default string comparison;
code-point order, which agrees with UTF-16 order on the Basic Multilingual
Plane). -/
def charListLe : List Char → List Char → Bool
  | [], _ => true
  | _ :: _, [] => false
  | a :: as, b :: bs => a < b || (a = b && charListLe as bs)

/-- Boolean string comparison used by the JS sort. -/
def strLeB (a b : String) : Bool :=
  charListLe a.data b.data

/-- JS `Array.prototype.sort()` on strings (default lexicographic order). -/
def jsSortStrings (l : List String) : List String :=
  List.insertionSort (fun a b => strLeB a b) l

/-- Result of `buildNotesCanonical`. -/
structure NotesCanonical where
  canonical : String
  count : Nat
  deriving DecidableEq, Repr

/-- The `unique` list of `buildNotesCanonical`:
`[...new Set(rawNotes.map(n => n.trim()).filter(Boolean))].sort()`. -/
def notesUnique (rawNotes : List String) : List String :=
  jsSortStrings (jsSetDedup ((rawNotes.map jsTrim).filter (fun s => s ≠ "")))

/-- domain.js `buildNotesCanonical`: trim each note, drop empties, deduplicate
exactly, sort, join with the fixed separator; also return the distinct count. -/
def buildNotesCanonical (rawNotes : List String) : NotesCanonical :=
  ⟨String.intercalate "\n---\n" (notesUnique rawNotes), (notesUnique rawNotes).length⟩

/-! ### Currency parser (domain.js `parseACV`, full version) -/

/-- JS `/\(.*\)/.test s`: some `'('` is followed by some `')'` with no line
terminator in between (`.` does not match line terminators). -/
def parenScanClose : List Char → Bool
  | [] => false
  | ')' :: _ => true
  | '\n' :: _ => false
  | '\r' :: _ => false
  | _ :: rest => parenScanClose rest

/-- See `parenScanClose`. -/
def parenNeg : List Char → Bool
  | [] => false
  | c :: rest =>
    if c = '(' then parenScanClose rest || parenNeg rest else parenNeg rest

/-- JS `parseFloat` restricted to strings over digits, `'.'`, `','` and `'-'`
(the only characters that survive the numeric cleanup in `parseACV`):
an optional sign, then a run of digits, then optionally a `'.'` and a second
run of digits; everything after that is ignored.  `none` models `NaN`. -/
def jsParseFloat (cs : List Char) : Option ℚ :=
  let (sign, rest) : Int × List Char :=
    match cs with
    | c :: r => if c = '-' then (-1, r) else if c = '+' then (1, r) else (1, c :: r)
    | [] => (1, [])
  let intPart := rest.takeWhile Char.isDigit
  let rest2 := rest.dropWhile Char.isDigit
  let fracPart :=
    match rest2 with
    | '.' :: r => r.takeWhile Char.isDigit
    | _ => []
  if intPart.isEmpty && fracPart.isEmpty then none
  else
    let intVal : ℕ := intPart.foldl (fun a c => 10 * a + (c.toNat - 48)) 0
    let fracVal : ℕ := fracPart.foldl (fun a c => 10 * a + (c.toNat - 48)) 0
    some (mkRat (sign * (intVal * 10 ^ fracPart.length + fracVal))
      (10 ^ fracPart.length))

/-- JS `x || 0` applied to a possibly-`NaN` parse result. -/
def jsOrZero : Option ℚ → ℚ
  | none => 0
  | some v => v

/-- Number of commas in the cleaned numeric string. -/
def commaCount (cs : List Char) : Nat :=
  cs.countP (fun c => c = ',')

/-- JS `lastIndexOf` on a character list: the index of the last occurrence,
`-1` when absent. -/
def lastIndexOfC (c : Char) : List Char → Int
  | [] => -1
  | x :: rest =>
    let r := lastIndexOfC c rest
    if r ≥ 0 then r + 1
    else if x = c then 0 else -1

/-- Replace the first `','` by `'.'` (JS `replace(',', '.')` with a string
pattern replaces only the first occurrence). -/
def replaceFirstComma : List Char → List Char
  | [] => []
  | c :: rest => if c = ',' then '.' :: rest else c :: replaceFirstComma rest

/-- The comma-disambiguation step of `parseACV`: a single comma with at most
two characters after it, positioned after the last dot, is a decimal
separator (strip dots, turn the comma into a dot); otherwise commas are
thousand separators and are stripped. -/
def disambiguateCommas (numeric : List Char) : List Char :=
  if numeric.contains ',' then
    let cc := commaCount numeric
    let lastComma := lastIndexOfC ',' numeric
    let digitsAfterComma : Int := (numeric.length : Int) - lastComma - 1
    if cc = 1 && digitsAfterComma ≤ 2 && lastIndexOfC '.' numeric < lastComma then
      replaceFirstComma (numeric.filter (fun c => c ≠ '.'))
    else
      numeric.filter (fun c => c ≠ ',')
  else numeric

/-- Result record of `parseACV`. -/
structure ACVResult where
  value : ℚ
  currency : String
  isCAD : Bool
  raw : String
  deriving DecidableEq, Repr

/-- domain.js `parseACV` (the full version shared by the browser app and the
golden-file generator): currency detection by marker, parenthesised-negative
detection, numeric cleanup, comma disambiguation, `parseFloat || 0`, and the
sign flip for parenthesised amounts. -/
def parseACV (value : String) : ACVResult :=
  if value = "" then ⟨0, "CAD", true, ""⟩
  else
    let upper := jsToUpper (jsTrim value)
    let currency : String :=
      if strIncludes upper "USD" || jsStartsWith upper "US$" then "USD"
      else if strIncludes upper "EUR"
          || jsStartsWith (String.mk (upper.data.filter (fun c => !c.isWhitespace))) "€" then
        "EUR"
      else if strIncludes upper "CAD" || strIncludes upper "CA$" || strIncludes upper "C$" then
        "CAD"
      else "CAD"
    let isCAD := currency = "CAD"
    let isNegative := parenNeg upper.data
    let numeric :=
      upper.data.filter (fun c => c.isDigit || c = '.' || c = ',' || c = '-')
    let numeric := disambiguateCommas numeric
    let amount := jsOrZero (jsParseFloat numeric)
    let amount := if isNegative && amount > 0 then -amount else amount
    ⟨amount, currency, isCAD, value⟩

/-! ### HTML stripping (generate-golden.js `stripHTML`) -/

/-- Drop everything up to and including the first `'>'`. -/
def afterGt : List Char → List Char
  | [] => []
  | '>' :: rest => rest
  | _ :: rest => afterGt rest

/-- One step per unit of fuel; fuel is the length of the input, which is
enough since each step consumes at least one character. -/
def stripHTMLGo : Nat → List Char → List Char
  | 0, cs => cs
  | fuel + 1, cs =>
    match cs with
    | [] => []
    | '<' :: rest =>
      if rest.contains '>' then stripHTMLGo fuel (afterGt rest)
      else '<' :: rest
    | c :: rest => c :: stripHTMLGo fuel rest

/-- generate-golden.js `stripHTML`: remove every `<[^>]*>` match
(JS `html.replace(/<[^>]*>/g, '')`). -/
def stripHTML (html : String) : String :=
  if html = "" then ""
  else ⟨stripHTMLGo html.data.length html.data⟩

/-! ### CSV tokenizer (`parseCSVText`) -/

/-- The character loop of `parseCSVText`.  `field` and `row` are the current
field and row accumulated in reverse; `rows` is the finished rows in reverse.
One unit of fuel per consumed character (each step consumes at least one,
so fuel equal to the input length is enough). -/
def csvGo : Nat → Bool → List Char → List String → List (List String) →
    List Char → List (List String)
  | _, _, field, row, rows, [] =>
    if field.isEmpty && row.isEmpty then rows.reverse
    else (((⟨field.reverse⟩ : String) :: row).reverse :: rows).reverse
  | 0, _, field, row, rows, _ =>
    if field.isEmpty && row.isEmpty then rows.reverse
    else (((⟨field.reverse⟩ : String) :: row).reverse :: rows).reverse
  | fuel + 1, inQuotes, field, row, rows, c :: cs =>
    if inQuotes then
      match c, cs with
      | '"', '"' :: cs' => csvGo fuel true ('"' :: field) row rows cs'
      | '"', _ => csvGo fuel false field row rows cs
      | _, _ => csvGo fuel true (c :: field) row rows cs
    else
      match c, cs with
      | '"', _ => csvGo fuel true field row rows cs
      | ',', _ => csvGo fuel false [] ((⟨field.reverse⟩ : String) :: row) rows cs
      | '\r', '\n' :: cs' =>
        csvGo fuel false [] [] ((((⟨field.reverse⟩ : String) :: row).reverse) :: rows) cs'
      | '\r', _ =>
        csvGo fuel false [] [] ((((⟨field.reverse⟩ : String) :: row).reverse) :: rows) cs
      | '\n', _ =>
        csvGo fuel false [] [] ((((⟨field.reverse⟩ : String) :: row).reverse) :: rows) cs
      | _, _ => csvGo fuel false (c :: field) row rows cs

/-- `parseCSVText`: quote- and newline-aware tokenizer producing rows of
string fields. -/
def parseCSVText (text : String) : List (List String) :=
  csvGo text.data.length false [] [] [] text.data

/-! ### Deal records and row processing -/

/-- A raw CSV row as a JS object: header name to field value. -/
def RawRow : Type := List (String × String)

/-- JS `row[csvCol] || ''`. -/
def rawGet (row : RawRow) (key : String) : String :=
  (jsMapGet row key).getD ""

/-- A processed deal record (the object produced by `processRow` in
generate-golden.js).  Dates are abstract timestamps. -/
structure Deal where
  dealOwner : String
  dealName : String
  stage : String
  acv : ℚ
  closingDate : Option Int
  modifiedDate : Option Int
  noteContent : String
  descr : String
  dealKey : String
  deriving DecidableEq, Repr

/-- generate-golden.js `processRow`, parameterised by the JS date parser
`pd` (`new Date(...)` is implementation-defined).  Returns `none` when the
row is dropped by the currency filter. -/
def processRow (pd : String → Option Int) (row : RawRow) : Option Deal :=
  let acvResult := parseACV (rawGet row "Annual Contract Value")
  if !acvResult.isCAD then none
  else some
    { dealOwner := rawGet row "Deal Owner"
      dealName := rawGet row "Deal Name"
      stage := rawGet row "Stage"
      acv := acvResult.value
      closingDate := pd (rawGet row "Closing Date")
      modifiedDate := pd (rawGet row "Modified Time (Notes)")
      noteContent := stripHTML (rawGet row "Note Content")
      descr := rawGet row "Description"
      dealKey := makeDealKey (rawGet row "Deal Name") (rawGet row "Deal Owner") }

/-- `validateRow`: drop rows whose owner is empty, longer than 100
characters or more than 5 space-separated tokens, or whose deal name is
empty or whitespace-only. -/
def validateRow (deal : Deal) : Bool :=
  let owner := deal.dealOwner
  if owner = "" || owner.length > 100 || (jsSplitOnSpace owner).length > 5 then false
  else if deal.dealName = "" || (jsTrim deal.dealName).length = 0 then false
  else true

/-! ### Deduplication & aggregation (`deduplicateDeals`) -/

/-- The notes half of one `deduplicateDeals` loop iteration: make sure the
key has an entry, then append the trimmed note when it is non-empty
(JS `if (deal.noteContent && deal.noteContent.trim())`). -/
def notesStep (notesMap : List (String × List String)) (deal : Deal) :
    List (String × List String) :=
  let key := deal.dealKey
  let notesMap :=
    if (jsMapGet notesMap key).isNone then jsMapSet notesMap key [] else notesMap
  if deal.noteContent ≠ "" ∧ jsTrim deal.noteContent ≠ "" then
    jsMapSet notesMap key ((jsMapGet notesMap key).getD [] ++ [jsTrim deal.noteContent])
  else notesMap

/-- The winner half of one `deduplicateDeals` loop iteration: a strictly
later modified date replaces the stored row; a dated row replaces an undated
one; otherwise the stored row stays. -/
def dealStep (dealMap : List (String × Deal)) (deal : Deal) : List (String × Deal) :=
  match jsMapGet dealMap deal.dealKey with
  | none => jsMapSet dealMap deal.dealKey deal
  | some existing =>
    match deal.modifiedDate, existing.modifiedDate with
    | some d, some e => if e < d then jsMapSet dealMap deal.dealKey deal else dealMap
    | some _, none => jsMapSet dealMap deal.dealKey deal
    | none, _ => dealMap

/-- The first loop of `deduplicateDeals`: build the winning-deal map and the
all-notes map. -/
def dedupLoop : List Deal → List (String × Deal) → List (String × List String) →
    List (String × Deal) × List (String × List String)
  | [], dealMap, notesMap => (dealMap, notesMap)
  | deal :: rest, dealMap, notesMap =>
    dedupLoop rest (dealStep dealMap deal) (notesStep notesMap deal)

/-- A deduplicated deal with its canonical note history attached.  The
SHA-256 note hash and the text summary of the source are outside the scope
of the verified claims and are not modelled. -/
structure DedupedDeal extends Deal where
  notesCanonical : String
  notesCount : Nat
  deriving DecidableEq, Repr

/-- generate-golden.js `deduplicateDeals`: one deal per key (freshest
modified date wins, first row as tie-break), with the canonicalized union of
all rows' non-empty notes attached. -/
def deduplicateDeals (deals : List Deal) : List DedupedDeal :=
  let maps := dedupLoop deals [] []
  maps.1.map (fun p =>
    let rawNotes := (jsMapGet maps.2 p.2.dealKey).getD []
    let notes := buildNotesCanonical rawNotes
    { toDeal := p.2, notesCanonical := notes.canonical, notesCount := notes.count })

/-! ### Diff engine (app.js `diffDeals`) -/

/-- JS `Math.round`: round to nearest, halves towards `+∞`
(`⌊q + 1/2⌋`, computed directly on the numerator to stay executable). -/
def jsRound (q : ℚ) : ℤ :=
  Int.fdiv (2 * q.num + q.den) (2 * q.den)

/-- Per-deal classification of the diff engine. -/
inductive ChangeType where
  | isNew
  | updated
  | unchanged
  deriving DecidableEq, Repr

/-- The data of one human-readable change line (`"Stage: A → B"`,
`"ACV: $xK → $yK"`, `"Note updated"`); the presentation-layer string
formatting is not modelled. -/
inductive ChangeLine where
  | stageChange (oldStage newStage : String)
  | acvChange (oldAcv newAcv : ℚ)
  | noteUpdated
  deriving DecidableEq, Repr

/-- Aggregate diff counts. -/
structure DiffSummary where
  newCount : Nat
  updatedCount : Nat
  removedCount : Nat
  unchangedCount : Nat
  deriving DecidableEq, Repr

/-- JS `deal.dealKey || makeDealKey(deal.dealName, deal.dealOwner)` (an empty
`dealKey` models a missing/null stored key). -/
def diffKey (d : Deal) : String :=
  if d.dealKey = "" then makeDealKey d.dealName d.dealOwner else d.dealKey

/-- The per-deal comparison of `diffDeals` against the baseline entry. -/
def diffClassify (old d : Deal) : ChangeType × List ChangeLine :=
  let changes :=
    (if d.stage ≠ old.stage then [ChangeLine.stageChange old.stage d.stage] else []) ++
    (if jsRound d.acv ≠ jsRound old.acv then [ChangeLine.acvChange old.acv d.acv] else []) ++
    (if jsTrim d.noteContent ≠ jsTrim old.noteContent then [ChangeLine.noteUpdated] else [])
  if changes.length > 0 then (ChangeType.updated, changes)
  else (ChangeType.unchanged, [])

/-- app.js `diffDeals`: classify every deal of the newer snapshot against the
baseline by key, and count baseline keys absent from the newer snapshot as
removed.  Returns the annotated newer snapshot plus the counts. -/
def diffDeals (oldDeals newDeals : List Deal) :
    List (Deal × ChangeType × List ChangeLine) × DiffSummary :=
  let oldMap := oldDeals.foldl (fun m d => jsMapSet m (diffKey d) d) []
  let tagged := newDeals.map (fun d =>
    match jsMapGet oldMap (diffKey d) with
    | none => (d, ChangeType.isNew, ([] : List ChangeLine))
    | some old => (d, (diffClassify old d).1, (diffClassify old d).2))
  let newKeys := newDeals.map diffKey
  let removedCount :=
    (oldMap.filter (fun p => !newKeys.contains p.1)).length
  (tagged,
    { newCount := (tagged.filter (fun t => t.2.1 = ChangeType.isNew)).length
      updatedCount := (tagged.filter (fun t => t.2.1 = ChangeType.updated)).length
      removedCount := removedCount
      unchangedCount := (tagged.filter (fun t => t.2.1 = ChangeType.unchanged)).length })

/-! ### Health scoring engine (dealHealthScore.js) -/

/-- The six component weights (`defaultWeights()` supplies the defaults). -/
structure Weights where
  stageProbability : ℚ
  velocity : ℚ
  activityRecency : ℚ
  closeDateIntegrity : ℚ
  acv : ℚ
  notesSignal : ℚ
  deriving DecidableEq, Repr

/-- dealHealthScore.js `defaultWeights()`. -/
def defaultWeights : Weights :=
  { stageProbability := 25, velocity := 20, activityRecency := 15
    closeDateIntegrity := 10, acv := 15, notesSignal := 15 }

/-- dealHealthScore.js `DEFAULT_STAGE_SCORES`. -/
def DEFAULT_STAGE_SCORES : List (String × ℚ) :=
  [("discovery", 20), ("qualification", 35), ("proposal", 55),
   ("negotiation", 75), ("verbal commit", 90)]

/-- dealHealthScore.js `POSITIVE_KEYWORDS`. -/
def POSITIVE_KEYWORDS : List String :=
  ["budget confirmed", "legal engaged", "exec sponsor",
   "timeline committed", "verbal commit", "procurement"]

/-- dealHealthScore.js `NEGATIVE_KEYWORDS`. -/
def NEGATIVE_KEYWORDS : List String :=
  ["no response", "circling back", "waiting on approval",
   "reviewing internally", "pushed", "delayed", "stalled"]

/-- dealHealthScore.js `PUSH_SIGNALS`. -/
def PUSH_SIGNALS : List String :=
  ["pushed", "delayed", "moved out", "rescheduled"]

/-- The slice of a deal record that the scoring engine reads.  `none` in a
numeric slot models a missing or `NaN` JS number. -/
structure HealthDeal where
  stage : String
  daysSince : Option ℚ
  daysUntilClosing : Option ℚ
  acv : Option ℚ
  noteContent : String
  notesCanonical : String
  deriving DecidableEq, Repr

/-- `scoreStageProbability`: look the normalized stage up in the configured
stage→score map; empty or unmapped stage scores 35. -/
def scoreStageProbability (stage : String) (stageScoreMap : List (String × ℚ)) : ℚ :=
  if stage = "" then 35
  else
    match jsMapGet stageScoreMap (jsToLower (jsTrim stage)) with
    | some v => v
    | none => 35

/-- `scoreVelocity`: ratio of days-in-stage (`daysSince`, defaulting to `0`
when not a number) to the per-stage benchmark; no benchmark (absent or
`≤ 0`) is neutral 70. -/
def scoreVelocity (deal : HealthDeal) (medianDaysInStage : List (String × ℚ)) : ℚ :=
  let stage := jsToLower (jsTrim deal.stage)
  match jsMapGet medianDaysInStage stage with
  | none => 70
  | some benchmark =>
    if benchmark ≤ 0 then 70
    else
      let daysSince := deal.daysSince.getD 0
      let r := daysSince / benchmark
      if r ≤ 8/10 then 100
      else if r ≤ 12/10 then 70
      else if r ≤ 15/10 then 40
      else 10

/-- `scoreActivityRecency`: 100/70/40/10 by staleness; the unknown-date
sentinel (`≥ 999`) and non-numbers score 40. -/
def scoreActivityRecency (daysSince : Option ℚ) : ℚ :=
  match daysSince with
  | none => 40
  | some d =>
    if d ≥ 999 then 40
    else if d ≤ 7 then 100
    else if d ≤ 14 then 70
    else if d ≤ 30 then 40
    else 10

/-- `scoreCloseDateIntegrity`: base by days-until-closing, minus 20 per push
signal found in the note text, floored at 10 and capped at 100. -/
def scoreCloseDateIntegrity (deal : HealthDeal) : ℚ :=
  let base : ℚ :=
    match deal.daysUntilClosing with
    | none => 60
    | some daysUntil =>
      if daysUntil < 0 then
        if jsToLower (jsTrim deal.stage) = "closed won" then 100 else 10
      else if daysUntil ≤ 30 then 70
      else 100
  let text := jsToLower (deal.notesCanonical ++ " " ++ deal.noteContent)
  let pushCount := (PUSH_SIGNALS.filter (fun kw => strIncludes text kw)).length
  max 10 (min 100 (base - pushCount * 20))

/-- `scoreAcv`: percentile rank within the snapshot's positive-ACV
distribution; top quintile 100, above the 40th percentile 70, else 40;
zero/unknown ACV or empty distribution 40. -/
def scoreAcv (acv : Option ℚ) (acvDistribution : List ℚ) : ℚ :=
  match acv with
  | none => 40
  | some a =>
    if a = 0 then 40
    else if acvDistribution.isEmpty then 40
    else
      let below := (acvDistribution.filter (fun v => v < a)).length
      let percentile : ℚ := below / acvDistribution.length
      if percentile ≥ 8/10 then 100
      else if percentile ≥ 4/10 then 70
      else 40

/-- Result of `scoreNotesSignal`. -/
structure NotesSignalResult where
  score : ℚ
  positive : List String
  negative : List String
  deriving DecidableEq, Repr

/-- `scoreNotesSignal`: 50, plus 10 per distinct positive keyword, minus 10
per distinct negative keyword, clamped to `[0, 100]`. -/
def scoreNotesSignal (noteContent notesCanonical : String) : NotesSignalResult :=
  let text := jsToLower (noteContent ++ " " ++ notesCanonical)
  let positiveMatched := POSITIVE_KEYWORDS.filter (fun kw => strIncludes text kw)
  let negativeMatched := NEGATIVE_KEYWORDS.filter (fun kw => strIncludes text kw)
  { score :=
      max 0 (min 100 (50 + 10 * (positiveMatched.length : ℚ)
        - 10 * (negativeMatched.length : ℚ)))
    positive := positiveMatched
    negative := negativeMatched }

/-- The dataset-wide scoring context. -/
structure Context where
  acvDistribution : List ℚ
  medianDaysInStage : List (String × ℚ)
  deriving DecidableEq, Repr

/-- Append `v` to the group of `k`, creating the group on first use
(JS `if (!groups[k]) groups[k] = []; groups[k].push(v)`). -/
def groupPush (groups : List (String × List ℚ)) (k : String) (v : ℚ) :
    List (String × List ℚ) :=
  jsMapSet groups k ((jsMapGet groups k).getD [] ++ [v])

/-- Median of the values as computed by `buildContext`: sort ascending, take
the middle element, or the mean of the two middle elements. -/
def jsMedian (vals : List ℚ) : ℚ :=
  let sorted := List.insertionSort (fun a b : ℚ => a ≤ b) vals
  let mid := sorted.length / 2
  if sorted.length % 2 = 0 then ((sorted.getD (mid - 1) 0) + sorted.getD mid 0) / 2
  else sorted.getD mid 0

/-- One step of the stage-grouping loop of `buildContext`: skip empty
stages, non-number `daysSince` and the `999` sentinel, otherwise push the
value onto the stage's group. -/
def stageGroupStep (groups : List (String × List ℚ)) (d : HealthDeal) :
    List (String × List ℚ) :=
  let stage := jsToLower (jsTrim d.stage)
  if stage = "" then groups
  else
    match d.daysSince with
    | none => groups
    | some ds => if ds ≥ 999 then groups else groupPush groups stage ds

/-- dealHealthScore.js `buildContext`: the sorted positive-ACV distribution,
and the per-stage median of `daysSince` (excluding non-numbers and the `999`
sentinel) for every stage that has at least one sample. -/
def buildContext (deals : List HealthDeal) : Context :=
  if deals.isEmpty then ⟨[], []⟩
  else
    let acvValues :=
      List.insertionSort (fun a b : ℚ => a ≤ b)
        ((deals.filterMap (fun d => d.acv)).filter (fun a => 0 < a))
    let stageGroups := deals.foldl stageGroupStep []
    { acvDistribution := acvValues
      medianDaysInStage := stageGroups.map (fun p => (p.1, jsMedian p.2)) }

/-- An optional scoring configuration (partial overrides are legal). -/
structure ScoringConfig where
  weights : Option Weights
  stageScoreMap : Option (List (String × ℚ))
  deriving Repr

/-- The six component scores. -/
structure Components where
  stageProbability : ℚ
  velocity : ℚ
  activityRecency : ℚ
  closeDateIntegrity : ℚ
  acv : ℚ
  notesSignal : ℚ
  deriving DecidableEq, Repr

/-- Composite result of `computeDealHealthScore` (the debug bundle of the
source carries the same data as `Components` plus presentation values and is
not modelled separately). -/
structure ScoreResult where
  score : ℤ
  components : Components
  deriving DecidableEq, Repr

/-- JS `(config && config.weights) || defaultWeights()`. -/
def effectiveWeights (config : Option ScoringConfig) : Weights :=
  ((config.map (fun c => c.weights)).getD none).getD defaultWeights

/-- JS `(config && config.stageScoreMap) || DEFAULT_STAGE_SCORES`. -/
def effectiveStageMap (config : Option ScoringConfig) : List (String × ℚ) :=
  ((config.map (fun c => c.stageScoreMap)).getD none).getD DEFAULT_STAGE_SCORES

/-- dealHealthScore.js `computeDealHealthScore`: the six components, their
weighted average rounded to an integer, clamped to `[0, 100]` (`0` when the
total weight is not positive). -/
def computeDealHealthScore (deal : HealthDeal) (context : Context)
    (config : Option ScoringConfig) : ScoreResult :=
  let weights := effectiveWeights config
  let stageScoreMap := effectiveStageMap config
  let components : Components :=
    { stageProbability := scoreStageProbability deal.stage stageScoreMap
      velocity := scoreVelocity deal context.medianDaysInStage
      activityRecency := scoreActivityRecency deal.daysSince
      closeDateIntegrity := scoreCloseDateIntegrity deal
      acv := scoreAcv deal.acv context.acvDistribution
      notesSignal := (scoreNotesSignal deal.noteContent deal.notesCanonical).score }
  let totalWeight := weights.stageProbability + weights.velocity
    + weights.activityRecency + weights.closeDateIntegrity
    + weights.acv + weights.notesSignal
  let weightedSum := weights.stageProbability * components.stageProbability
    + weights.velocity * components.velocity
    + weights.activityRecency * components.activityRecency
    + weights.closeDateIntegrity * components.closeDateIntegrity
    + weights.acv * components.acv
    + weights.notesSignal * components.notesSignal
  let score : ℤ := if 0 < totalWeight then jsRound (weightedSum / totalWeight) else 0
  { score := max 0 (min 100 score), components := components }

/-! ### CSV metadata locator (generate-golden.js `parseCSV`) -/

/-- The header scan of `parseCSV`: the first row among the scanned window
containing both an exact `"Deal Owner"` and an exact `"Deal Name"` field,
with its index. -/
def findHeader : Nat → List (List String) → Option (Nat × List String)
  | _, [] => none
  | i, row :: rest =>
    if row.contains "Deal Owner" && row.contains "Deal Name" then some (i, row)
    else findHeader (i + 1) rest

/-- JS BOM strip: drop a leading U+FEFF. -/
def stripBOM (text : String) : String :=
  match text.data with
  | c :: rest => if c.toNat = 0xFEFF then ⟨rest⟩ else text
  | [] => text

/-- Build the row object: `headers.forEach((h, i) => row[h] = values[i] || '')`. -/
def rowToObj (headers values : List String) : RawRow :=
  headers.enum.foldl (fun row p => jsMapSet row p.2 (values.getD p.1 "")) []

/-- Keep a tokenized row: skip rows that are `[]` or a single empty field. -/
def keepRow (values : List String) : Bool :=
  !(values.length = 0 || (values.length = 1 && values.getD 0 "" = ""))

/-- generate-golden.js `parseCSV`: strip the BOM, tokenize, fail if there are
no rows at all, scan the first 20 rows for the header, fail if absent, then
turn every non-empty later row into a header-keyed object. -/
def parseCSV (text : String) : Except String (List RawRow) :=
  let text := stripBOM text
  let allRows := parseCSVText text
  if allRows.length = 0 then Except.error "No data found in CSV file."
  else
    match findHeader 0 (allRows.take 20) with
    | none => Except.error "Could not find header row."
    | some (headerRowIndex, headers) =>
      Except.ok
        (((allRows.drop (headerRowIndex + 1)).filter keepRow).map (rowToObj headers))

/-! ### Association-list (JS `Map`) lemmas -/

theorem jsMapGet_nil {α : Type} (k : String) :
    jsMapGet ([] : List (String × α)) k = none := rfl

theorem jsMapGet_cons {α : Type} (k' k : String) (v : α) (m : List (String × α)) :
    jsMapGet ((k', v) :: m) k = if k' = k then some v else jsMapGet m k := by
  simp only [jsMapGet, List.find?]
  by_cases h : k' = k <;> simp [h]

theorem jsMapGet_set_self {α : Type} (m : List (String × α)) (k : String) (v : α) :
    jsMapGet (jsMapSet m k v) k = some v := by
  induction m with
  | nil => simp [jsMapSet, jsMapGet_cons]
  | cons p rest ih =>
    obtain ⟨k', v'⟩ := p
    simp only [jsMapSet]
    by_cases h : k' = k
    · simp [h, jsMapGet_cons]
    · simp [h, jsMapGet_cons, ih]

theorem jsMapGet_set_ne {α : Type} (m : List (String × α)) (k k' : String) (v : α)
    (h : k' ≠ k) : jsMapGet (jsMapSet m k v) k' = jsMapGet m k' := by
  have hne : k ≠ k' := fun hh => h hh.symm
  induction m with
  | nil => simp [jsMapSet, jsMapGet_cons, hne]
  | cons p rest ih =>
    obtain ⟨k'', v''⟩ := p
    by_cases hk : k'' = k
    · subst hk
      simp [jsMapSet, jsMapGet_cons, hne]
    · simp [jsMapSet, hk, jsMapGet_cons, ih]

/-- The winning row of the two-row merge, as the specification states it:
strictly later last-modified date wins; a dated row beats an undated one;
otherwise the first row is kept. -/
def mergeWinner (r1 r2 : Deal) : Deal :=
  match r2.modifiedDate, r1.modifiedDate with
  | some d2, some d1 => if d1 < d2 then r2 else r1
  | some _, none => r2
  | none, _ => r1

/-- C2: for two rows sharing a deal key, the surviving Deal's scalar fields
are exactly those of the row with the strictly later last-modified date; a
row with a date beats one without; with no dates the first row is kept. -/
theorem dedup_two_rows_merge_rule (r1 r2 : Deal) (hk : r2.dealKey = r1.dealKey) :
    (deduplicateDeals [r1, r2]).map (fun d => d.toDeal) = [mergeWinner r1 r2] := by
  cases h2 : r2.modifiedDate with
  | none =>
    simp [deduplicateDeals, dedupLoop, dealStep, notesStep, hk, jsMapGet_set_self,
      mergeWinner, h2, jsMapSet, jsMapGet_cons, jsMapGet_nil]
  | some d2 =>
    cases h1 : r1.modifiedDate with
    | none =>
      simp [deduplicateDeals, dedupLoop, dealStep, notesStep, hk, jsMapGet_set_self,
        mergeWinner, h2, h1, jsMapSet, jsMapGet_cons, jsMapGet_nil]
    | some d1 =>
      by_cases hlt : d1 < d2 <;>
        simp [deduplicateDeals, dedupLoop, dealStep, notesStep, hk, jsMapGet_set_self,
          mergeWinner, h2, h1, hlt, jsMapSet, jsMapGet_cons, jsMapGet_nil]

/-- An early note row for the merge-rule witness. -/
def rowEarlier : Deal :=
  { dealOwner := "Alice", dealName := "Acme", stage := "proposal", acv := 100
    closingDate := none, modifiedDate := some 10, noteContent := "first note"
    descr := "", dealKey := "acme||alice" }

/-- A later note row for the merge-rule witness (same key, later date). -/
def rowLater : Deal :=
  { dealOwner := "Alice", dealName := "Acme", stage := "negotiation", acv := 120
    closingDate := none, modifiedDate := some 20, noteContent := "second note"
    descr := "", dealKey := "acme||alice" }

/-- Witness for C2: on two concrete rows with the same key, the later-dated
row's scalar fields survive. -/
theorem dedup_two_rows_merge_rule_witness :
    rowLater.dealKey = rowEarlier.dealKey ∧
      (deduplicateDeals [rowEarlier, rowLater]).map (fun d => d.toDeal) =
        [mergeWinner rowEarlier rowLater] :=
  ⟨by decide, dedup_two_rows_merge_rule rowEarlier rowLater (by decide)⟩

/-! ### C4: the velocity component -/

/-- C4 (amended): `scoreVelocity` is the 100/70/40/10 tier of the ratio
days-in-stage / benchmark; a missing benchmark (absent or `≤ 0`) is neutral
70; a missing/`NaN` days-in-stage is treated as `0` (hence 100 whenever a
positive benchmark exists), and the unknown-date sentinel `999` is fed into
the ratio like an ordinary value (hence 10 whenever `999/benchmark > 1.5`). -/
theorem scoreVelocity_spec (deal : HealthDeal) (m : List (String × ℚ)) :
    (jsMapGet m (jsToLower (jsTrim deal.stage)) = none → scoreVelocity deal m = 70) ∧
    (∀ b, jsMapGet m (jsToLower (jsTrim deal.stage)) = some b → b ≤ 0 →
      scoreVelocity deal m = 70) ∧
    (∀ b, jsMapGet m (jsToLower (jsTrim deal.stage)) = some b → 0 < b →
      scoreVelocity deal m =
        (if deal.daysSince.getD 0 / b ≤ 8/10 then 100
         else if deal.daysSince.getD 0 / b ≤ 12/10 then 70
         else if deal.daysSince.getD 0 / b ≤ 15/10 then 40
         else 10)) ∧
    (deal.daysSince = none →
      ∀ b, jsMapGet m (jsToLower (jsTrim deal.stage)) = some b → 0 < b →
      scoreVelocity deal m = 100) ∧
    (deal.daysSince = some 999 →
      ∀ b, jsMapGet m (jsToLower (jsTrim deal.stage)) = some b → 0 < b →
      (999 : ℚ) / b > 15/10 → scoreVelocity deal m = 10) := by
  refine ⟨?_, ?_, ?_, ?_, ?_⟩
  · intro h
    simp [scoreVelocity, h]
  · intro b hb hle
    simp [scoreVelocity, hb, if_pos hle]
  · intro b hb hpos
    simp [scoreVelocity, hb, not_le.mpr hpos]
  · intro hds b hb hpos
    have h0 : (0 : ℚ) / b ≤ 8/10 := by
      rw [zero_div]
      norm_num
    simp [scoreVelocity, hb, not_le.mpr hpos, hds, h0]
    intro h
    norm_num at h
  · intro hds b hb hpos hr
    have h1 : ¬ ((999 : ℚ) / b ≤ 8/10) := by linarith
    have h2 : ¬ ((999 : ℚ) / b ≤ 12/10) := by linarith
    have h3 : ¬ ((999 : ℚ) / b ≤ 15/10) := by linarith
    simp [scoreVelocity, hb, not_le.mpr hpos, hds, h1, h2, h3]

/-- A deal whose modified date is unknown: `daysSince` is the `999` sentinel. -/
def sentinelDeal : HealthDeal :=
  { stage := "discovery", daysSince := some 999, daysUntilClosing := none
    acv := none, noteContent := "", notesCanonical := "" }

/-- A benchmark map giving the `discovery` stage a 14-day benchmark. -/
def discoveryBenchmark : List (String × ℚ) := [("discovery", 14)]

/-- Counterexample for C4 as stated: a deal with the unknown-date sentinel
and an existing benchmark scores 10, not the neutral 70. -/
theorem scoreVelocity_sentinel_counterexample :
    sentinelDeal.daysSince = some 999 ∧
      scoreVelocity sentinelDeal discoveryBenchmark = 10 ∧
      scoreVelocity sentinelDeal discoveryBenchmark ≠ 70 := by
  refine ⟨rfl, ?_, ?_⟩ <;>
  · simp [scoreVelocity, sentinelDeal, discoveryBenchmark, jsMapGet, jsToLower, jsTrim,
      jsTrimChars, List.find?]
    norm_num

/-- A deal in a stage that has no benchmark entry. -/
def unmappedStageDeal : HealthDeal :=
  { stage := "qualification", daysSince := some 3, daysUntilClosing := none
    acv := none, noteContent := "", notesCanonical := "" }

/-- Witness for C4's amended theorem: no benchmark for the stage gives the
neutral 70. -/
theorem scoreVelocity_spec_witness :
    scoreVelocity unmappedStageDeal discoveryBenchmark = 70 :=
  (scoreVelocity_spec unmappedStageDeal discoveryBenchmark).1 (by decide)

/-! ### C5: the per-stage time-in-stage benchmark -/

/-- The `daysSince` samples that `buildContext` collects for the normalized
stage key `s`, in encounter order: deals of that stage with a numeric
`daysSince` below the `999` sentinel. -/
def stageSamples (deals : List HealthDeal) (s : String) : List ℚ :=
  deals.filterMap (fun d =>
    if jsToLower (jsTrim d.stage) = s then
      match d.daysSince with
      | some v => if v ≥ 999 then none else some v
      | none => none
    else none)

theorem groupFold_get (deals : List HealthDeal) (g : List (String × List ℚ))
    (s : String) (hs : s ≠ "") :
    jsMapGet (deals.foldl stageGroupStep g) s =
      match jsMapGet g s with
      | some l0 => some (l0 ++ stageSamples deals s)
      | none =>
        if stageSamples deals s = [] then none else some (stageSamples deals s)
  := by
  induction deals generalizing g with
  | nil =>
    simp only [List.foldl_nil, stageSamples, List.filterMap_nil]
    cases h : jsMapGet g s <;> simp [h]
  | cons d rest ih =>
    have hsamp :
        stageSamples (d :: rest) s =
          (if jsToLower (jsTrim d.stage) = s then
            (match d.daysSince with
             | some v => if v ≥ 999 then none else some v
             | none => none).toList
          else []) ++ stageSamples rest s := by
      simp only [stageSamples, List.filterMap_cons]
      by_cases hstage : jsToLower (jsTrim d.stage) = s
      · simp only [hstage, if_pos rfl]
        cases hds : d.daysSince with
        | none => simp
        | some v =>
          by_cases hv : v ≥ 999 <;> simp [hv]
      · simp [hstage]
    simp only [List.foldl_cons]
    by_cases hstage0 : jsToLower (jsTrim d.stage) = ""
    · have hne : jsToLower (jsTrim d.stage) ≠ s := by
        rw [hstage0]
        exact fun h => hs h.symm
      rw [show stageGroupStep g d = g by simp [stageGroupStep, hstage0], ih g, hsamp]
      simp [hne]
    · cases hds : d.daysSince with
      | none =>
        rw [show stageGroupStep g d = g by simp [stageGroupStep, hstage0, hds],
          ih g, hsamp]
        by_cases hstage : jsToLower (jsTrim d.stage) = s <;> simp [hstage, hds]
      | some v =>
        by_cases hv : v ≥ 999
        · rw [show stageGroupStep g d = g by simp [stageGroupStep, hstage0, hds, hv],
            ih g, hsamp]
          by_cases hstage : jsToLower (jsTrim d.stage) = s <;> simp [hstage, hds, hv]
        · have hstep : stageGroupStep g d = groupPush g (jsToLower (jsTrim d.stage)) v := by
            simp [stageGroupStep, hstage0, hds, hv]
          by_cases hstage : jsToLower (jsTrim d.stage) = s
          · rw [hstep, hstage, ih, hsamp]
            rw [show jsMapGet (groupPush g s v) s = some ((jsMapGet g s).getD [] ++ [v]) from
              jsMapGet_set_self _ _ _]
            simp only [hstage, if_pos rfl, hds, hv, if_pos rfl]
            cases h : jsMapGet g s <;> simp [h, Option.toList]
          · rw [hstep, ih, hsamp]
            rw [show jsMapGet (groupPush g (jsToLower (jsTrim d.stage)) v) s = jsMapGet g s from
              jsMapGet_set_ne _ _ _ _ (fun h => hstage h.symm)]
            simp [hstage]

theorem jsMapGet_map_value {α β : Type} (m : List (String × α)) (f : α → β) (k : String) :
    jsMapGet (m.map (fun p => (p.1, f p.2))) k = (jsMapGet m k).map f := by
  induction m with
  | nil => simp [jsMapGet]
  | cons p rest ih =>
    obtain ⟨k', v⟩ := p
    by_cases h : k' = k <;> simp [jsMapGet_cons, h, ih]

/-- C5 (amended): the scoring context's per-stage benchmark is the dataset's
per-stage median of days-since-modified (excluding the unknown sentinel),
computed for every stage with at least one sample; a stage with no samples
has no benchmark entry at all — there is no constant built-in benchmark and
no minimum sample count. -/
theorem buildContext_benchmark_spec (deals : List HealthDeal) (s : String)
    (hs : s ≠ "") :
    jsMapGet (buildContext deals).medianDaysInStage s =
      if stageSamples deals s = [] then none
      else some (jsMedian (stageSamples deals s)) := by
  cases deals with
  | nil => simp [buildContext, stageSamples, jsMapGet]
  | cons d rest =>
    show jsMapGet (buildContext (d :: rest)).medianDaysInStage s = _
    rw [show (buildContext (d :: rest)).medianDaysInStage =
      ((d :: rest).foldl stageGroupStep []).map (fun p => (p.1, jsMedian p.2)) by
        simp [buildContext]]
    rw [jsMapGet_map_value, groupFold_get _ _ _ hs]
    rw [show jsMapGet ([] : List (String × List ℚ)) s = none from rfl]
    by_cases h : stageSamples (d :: rest) s = [] <;> simp [h]

/-- A dataset with a single discovery-stage deal, modified 5 days ago. -/
def soloDiscoveryDeal : HealthDeal :=
  { stage := "Discovery", daysSince := some 5, daysUntilClosing := none
    acv := none, noteContent := "", notesCanonical := "" }

/-- Counterexample for C5 as stated: with a single sample (fewer than 3),
the benchmark for `discovery` is the dataset median 5, not the built-in
constant 14 the spec describes. -/
theorem buildContext_no_builtin_benchmark_counterexample :
    jsMapGet (buildContext [soloDiscoveryDeal]).medianDaysInStage "discovery" =
        some 5 ∧ (5 : ℚ) ≠ 14 := by
  constructor
  · decide
  · norm_num

/-- Witness for C5's amended theorem at a concrete dataset. -/
theorem buildContext_benchmark_spec_witness :
    ("discovery" : String) ≠ "" ∧
      jsMapGet (buildContext [soloDiscoveryDeal]).medianDaysInStage "discovery" =
        if stageSamples [soloDiscoveryDeal] "discovery" = [] then none
        else some (jsMedian (stageSamples [soloDiscoveryDeal] "discovery")) :=
  ⟨by decide, buildContext_benchmark_spec [soloDiscoveryDeal] "discovery" (by decide)⟩

/-! ### C3: health score bounds -/

/-- All six configured weights are strictly positive. -/
def weightsPositive (w : Weights) : Prop :=
  0 < w.stageProbability ∧ 0 < w.velocity ∧ 0 < w.activityRecency ∧
    0 < w.closeDateIntegrity ∧ 0 < w.acv ∧ 0 < w.notesSignal

/-- `q` is an integer value. -/
def isIntQ (q : ℚ) : Prop := ∃ n : ℤ, q = (n : ℚ)

/-- `q` is an integer in `[0, 100]`. -/
def intIn0To100 (q : ℚ) : Prop := isIntQ q ∧ 0 ≤ q ∧ q ≤ 100

theorem isIntQ_min {a b : ℚ} (ha : isIntQ a) (hb : isIntQ b) : isIntQ (min a b) := by
  obtain ⟨m, rfl⟩ := ha
  obtain ⟨n, rfl⟩ := hb
  exact ⟨min m n, by push_cast; rfl⟩

theorem isIntQ_max {a b : ℚ} (ha : isIntQ a) (hb : isIntQ b) : isIntQ (max a b) := by
  obtain ⟨m, rfl⟩ := ha
  obtain ⟨n, rfl⟩ := hb
  exact ⟨max m n, by push_cast; rfl⟩

theorem intIn0To100_clamp (lo x : ℚ) (hlo : isIntQ lo) (hx : isIntQ x)
    (h0 : 0 ≤ lo) (h1 : lo ≤ 100) : intIn0To100 (max lo (min 100 x)) := by
  refine ⟨isIntQ_max hlo (isIntQ_min ⟨100, by norm_num⟩ hx), ?_, ?_⟩
  · exact le_trans h0 (le_max_left _ _)
  · exact max_le h1 (min_le_left _ _)

theorem jsMapGet_mem {α : Type} (m : List (String × α)) (k : String) (v : α)
    (h : jsMapGet m k = some v) : (k, v) ∈ m := by
  induction m with
  | nil => simp [jsMapGet] at h
  | cons p rest ih =>
    obtain ⟨k', v'⟩ := p
    rw [jsMapGet_cons] at h
    by_cases hk : k' = k
    · rw [if_pos hk] at h
      subst hk
      obtain rfl : v' = v := by injection h
      exact List.mem_cons_self _ _
    · rw [if_neg hk] at h
      exact List.mem_cons_of_mem _ (ih h)

theorem scoreVelocity_mem (d : HealthDeal) (m : List (String × ℚ)) :
    scoreVelocity d m = 70 ∨ scoreVelocity d m = 100 ∨
      scoreVelocity d m = 40 ∨ scoreVelocity d m = 10 := by
  rcases hget : jsMapGet m (jsToLower (jsTrim d.stage)) with _ | b
  · simp [scoreVelocity, hget]
  · simp only [scoreVelocity, hget]
    split_ifs <;> simp

theorem scoreActivityRecency_mem (ds : Option ℚ) :
    scoreActivityRecency ds = 40 ∨ scoreActivityRecency ds = 100 ∨
      scoreActivityRecency ds = 70 ∨ scoreActivityRecency ds = 10 := by
  cases ds with
  | none => simp [scoreActivityRecency]
  | some d =>
    simp only [scoreActivityRecency]
    split_ifs <;> simp

theorem scoreAcv_mem (acv : Option ℚ) (dist : List ℚ) :
    scoreAcv acv dist = 40 ∨ scoreAcv acv dist = 100 ∨ scoreAcv acv dist = 70 := by
  cases acv with
  | none => simp [scoreAcv]
  | some a =>
    simp only [scoreAcv]
    split_ifs <;> simp

theorem scoreCloseDateIntegrity_intIn (d : HealthDeal) :
    intIn0To100 (scoreCloseDateIntegrity d) := by
  unfold scoreCloseDateIntegrity
  refine intIn0To100_clamp _ _ ⟨10, by norm_num⟩ ?_ (by norm_num) (by norm_num)
  have hbase : isIntQ (match d.daysUntilClosing with
      | none => (60 : ℚ)
      | some daysUntil =>
        if daysUntil < 0 then
          if jsToLower (jsTrim d.stage) = "closed won" then 100 else 10
        else if daysUntil ≤ 30 then 70
        else 100) := by
    cases d.daysUntilClosing with
    | none => exact ⟨60, by norm_num⟩
    | some du =>
      simp only
      split_ifs
      · exact ⟨100, by norm_num⟩
      · exact ⟨10, by norm_num⟩
      · exact ⟨70, by norm_num⟩
      · exact ⟨100, by norm_num⟩
  obtain ⟨n, hn⟩ := hbase
  rw [hn]
  exact ⟨n - 20 * (PUSH_SIGNALS.filter
    (fun kw => strIncludes (jsToLower (d.notesCanonical ++ " " ++ d.noteContent)) kw)).length,
    by push_cast; ring⟩

theorem scoreNotesSignal_intIn (noteContent notesCanonical : String) :
    intIn0To100 (scoreNotesSignal noteContent notesCanonical).score := by
  unfold scoreNotesSignal
  refine intIn0To100_clamp _ _ ⟨0, by norm_num⟩ ?_ (by norm_num) (by norm_num)
  exact ⟨50 + 10 * (POSITIVE_KEYWORDS.filter
      (fun kw => strIncludes (jsToLower (noteContent ++ " " ++ notesCanonical)) kw)).length
    - 10 * (NEGATIVE_KEYWORDS.filter
      (fun kw => strIncludes (jsToLower (noteContent ++ " " ++ notesCanonical)) kw)).length,
    by push_cast; ring⟩

/-- C3 (amended): for every deal, context and configuration whose weights
are all positive and whose stage→score map holds integers in `[0, 100]` (the
built-in map does), the composite and all six components are integers in
`[0, 100]`. -/
theorem computeDealHealthScore_bounds (deal : HealthDeal) (context : Context)
    (config : Option ScoringConfig)
    (hw : weightsPositive (effectiveWeights config))
    (hm : ∀ p ∈ effectiveStageMap config, intIn0To100 p.2) :
    intIn0To100 (computeDealHealthScore deal context config).components.stageProbability ∧
    intIn0To100 (computeDealHealthScore deal context config).components.velocity ∧
    intIn0To100 (computeDealHealthScore deal context config).components.activityRecency ∧
    intIn0To100 (computeDealHealthScore deal context config).components.closeDateIntegrity ∧
    intIn0To100 (computeDealHealthScore deal context config).components.acv ∧
    intIn0To100 (computeDealHealthScore deal context config).components.notesSignal ∧
    0 ≤ (computeDealHealthScore deal context config).score ∧
    (computeDealHealthScore deal context config).score ≤ 100 := by
  have hn35 : intIn0To100 (35 : ℚ) := ⟨⟨35, by norm_num⟩, by norm_num, by norm_num⟩
  have h70 : intIn0To100 (70 : ℚ) := ⟨⟨70, by norm_num⟩, by norm_num, by norm_num⟩
  have h100 : intIn0To100 (100 : ℚ) := ⟨⟨100, by norm_num⟩, by norm_num, by norm_num⟩
  have h40 : intIn0To100 (40 : ℚ) := ⟨⟨40, by norm_num⟩, by norm_num, by norm_num⟩
  have h10 : intIn0To100 (10 : ℚ) := ⟨⟨10, by norm_num⟩, by norm_num, by norm_num⟩
  refine ⟨?_, ?_, ?_, ?_, ?_, ?_, ?_, ?_⟩
  · show intIn0To100 (scoreStageProbability deal.stage (effectiveStageMap config))
    unfold scoreStageProbability
    split_ifs
    · exact hn35
    · cases hget : jsMapGet (effectiveStageMap config) (jsToLower (jsTrim deal.stage)) with
      | none => simpa [hget] using hn35
      | some v =>
        have := hm _ (jsMapGet_mem _ _ _ hget)
        simpa [hget] using this
  · show intIn0To100 (scoreVelocity deal context.medianDaysInStage)
    rcases scoreVelocity_mem deal context.medianDaysInStage with h | h | h | h <;>
      rw [h] <;> first | exact h70 | exact h100 | exact h40 | exact h10
  · show intIn0To100 (scoreActivityRecency deal.daysSince)
    rcases scoreActivityRecency_mem deal.daysSince with h | h | h | h <;>
      rw [h] <;> first | exact h70 | exact h100 | exact h40 | exact h10
  · exact scoreCloseDateIntegrity_intIn deal
  · show intIn0To100 (scoreAcv deal.acv context.acvDistribution)
    rcases scoreAcv_mem deal.acv context.acvDistribution with h | h | h <;>
      rw [h] <;> first | exact h70 | exact h100 | exact h40 | exact h10
  · exact scoreNotesSignal_intIn deal.noteContent deal.notesCanonical
  · show (0 : ℤ) ≤ max 0 (min 100 _)
    exact le_max_left _ _
  · show max 0 (min 100 _) ≤ (100 : ℤ)
    exact max_le (by norm_num) (min_le_left _ _)

/-- A configuration with positive (default) weights but a stage score above
100 — legal input the claim quantifies over. -/
def overScaleConfig : ScoringConfig :=
  { weights := some defaultWeights, stageScoreMap := some [("discovery", 101)] }

/-- A bare discovery-stage deal. -/
def basicDiscoveryDeal : HealthDeal :=
  { stage := "discovery", daysSince := none, daysUntilClosing := none
    acv := none, noteContent := "", notesCanonical := "" }

/-- The empty scoring context. -/
def emptyContext : Context := ⟨[], []⟩

/-- Counterexample for C3 as stated: with all-positive weights but a
configured stage→score map value of 101, the stage-probability component is
101, outside `[0, 100]` (components are not clamped). -/
theorem health_component_out_of_range_counterexample :
    weightsPositive (effectiveWeights (some overScaleConfig)) ∧
      (computeDealHealthScore basicDiscoveryDeal emptyContext
        (some overScaleConfig)).components.stageProbability = 101 ∧
      ¬ (computeDealHealthScore basicDiscoveryDeal emptyContext
        (some overScaleConfig)).components.stageProbability ≤ 100 := by
  have h101 : (computeDealHealthScore basicDiscoveryDeal emptyContext
      (some overScaleConfig)).components.stageProbability = 101 := by
    simp [computeDealHealthScore, scoreStageProbability, effectiveStageMap,
      overScaleConfig, basicDiscoveryDeal, jsMapGet, jsToLower, jsTrim, jsTrimChars,
      List.find?]
  refine ⟨by norm_num [weightsPositive, effectiveWeights, overScaleConfig, defaultWeights],
    h101, ?_⟩
  rw [h101]
  norm_num

/-- The built-in stage→score map holds integers in `[0, 100]`. -/
theorem default_stage_map_intIn : ∀ p ∈ DEFAULT_STAGE_SCORES, intIn0To100 p.2 := by
  intro p hp
  simp only [DEFAULT_STAGE_SCORES, List.mem_cons, List.mem_singleton] at hp
  rcases hp with rfl | rfl | rfl | rfl | rfl | h
  · exact ⟨⟨20, by norm_num⟩, by norm_num, by norm_num⟩
  · exact ⟨⟨35, by norm_num⟩, by norm_num, by norm_num⟩
  · exact ⟨⟨55, by norm_num⟩, by norm_num, by norm_num⟩
  · exact ⟨⟨75, by norm_num⟩, by norm_num, by norm_num⟩
  · exact ⟨⟨90, by norm_num⟩, by norm_num, by norm_num⟩
  · simp at h

/-- Witness for C3's amended theorem: the default configuration on a
concrete deal. -/
theorem computeDealHealthScore_bounds_witness :
    weightsPositive (effectiveWeights none) ∧
      (intIn0To100 (computeDealHealthScore basicDiscoveryDeal emptyContext
          none).components.stageProbability ∧
        intIn0To100 (computeDealHealthScore basicDiscoveryDeal emptyContext
          none).components.velocity ∧
        intIn0To100 (computeDealHealthScore basicDiscoveryDeal emptyContext
          none).components.activityRecency ∧
        intIn0To100 (computeDealHealthScore basicDiscoveryDeal emptyContext
          none).components.closeDateIntegrity ∧
        intIn0To100 (computeDealHealthScore basicDiscoveryDeal emptyContext
          none).components.acv ∧
        intIn0To100 (computeDealHealthScore basicDiscoveryDeal emptyContext
          none).components.notesSignal ∧
        0 ≤ (computeDealHealthScore basicDiscoveryDeal emptyContext none).score ∧
        (computeDealHealthScore basicDiscoveryDeal emptyContext none).score ≤ 100) :=
  ⟨by norm_num [weightsPositive, effectiveWeights, defaultWeights],
    computeDealHealthScore_bounds basicDiscoveryDeal emptyContext none
      (by norm_num [weightsPositive, effectiveWeights, defaultWeights])
      default_stage_map_intIn⟩

/-! ### C9: diffing a snapshot against itself -/

theorem mem_jsMapSet {α : Type} (m : List (String × α)) (k : String) (v : α)
    (p : String × α) (hp : p ∈ jsMapSet m k v) : p ∈ m ∨ p = (k, v) := by
  induction m with
  | nil => simpa [jsMapSet] using hp
  | cons q rest ih =>
    obtain ⟨k', v'⟩ := q
    by_cases h : k' = k
    · rw [jsMapSet, if_pos h] at hp
      rcases List.mem_cons.mp hp with rfl | hmem
      · exact Or.inr rfl
      · exact Or.inl (List.mem_cons_of_mem _ hmem)
    · rw [jsMapSet, if_neg h] at hp
      rcases List.mem_cons.mp hp with rfl | hmem
      · exact Or.inl (List.mem_cons_self _ _)
      · rcases ih hmem with h' | h'
        · exact Or.inl (List.mem_cons_of_mem _ h')
        · exact Or.inr h'

theorem foldl_set_get_of_forall_ne (l : List Deal) (m : List (String × Deal))
    (k : String) (h : ∀ d ∈ l, diffKey d ≠ k) :
    jsMapGet (l.foldl (fun acc d => jsMapSet acc (diffKey d) d) m) k = jsMapGet m k := by
  induction l generalizing m with
  | nil => rfl
  | cons a rest ih =>
    rw [List.foldl_cons, ih _ (fun d hd => h d (List.mem_cons_of_mem _ hd)),
      jsMapGet_set_ne _ _ _ _ (fun hk => h a (List.mem_cons_self _ _) hk.symm)]

theorem buildMap_get_self (l : List Deal) (h : (l.map diffKey).Nodup) :
    ∀ (m : List (String × Deal)), ∀ d ∈ l,
      jsMapGet (l.foldl (fun acc x => jsMapSet acc (diffKey x) x) m) (diffKey d) = some d := by
  induction l with
  | nil => intro m d hd; simp at hd
  | cons a rest ih =>
    rw [List.map_cons, List.nodup_cons] at h
    intro m d hd
    rcases List.mem_cons.mp hd with rfl | hmem
    · rw [List.foldl_cons,
        foldl_set_get_of_forall_ne rest _ _
          (fun x hx hk => h.1 (by rw [← hk]; exact List.mem_map_of_mem diffKey hx)),
        jsMapGet_set_self]
    · rw [List.foldl_cons]
      exact ih h.2 _ d hmem

theorem foldl_set_mem_keys (l : List Deal) (m : List (String × Deal))
    (p : String × Deal) (hp : p ∈ l.foldl (fun acc d => jsMapSet acc (diffKey d) d) m) :
    p ∈ m ∨ p.1 ∈ l.map diffKey := by
  induction l generalizing m with
  | nil => exact Or.inl hp
  | cons a rest ih =>
    rw [List.foldl_cons] at hp
    rcases ih _ hp with h' | h'
    · rcases mem_jsMapSet _ _ _ _ h' with h'' | h''
      · exact Or.inl h''
      · subst h''
        exact Or.inr (by simp)
    · exact Or.inr (List.mem_cons_of_mem _ h')

/-- C9: diffing a snapshot with unique deal keys against itself classifies
every deal as unchanged with no change lines, and the aggregate counts are
`{new: 0, updated: 0, removed: 0, unchanged: N}`. -/
theorem diffDeals_self (deals : List Deal) (h : (deals.map diffKey).Nodup) :
    diffDeals deals deals =
      (deals.map (fun d => (d, ChangeType.unchanged, ([] : List ChangeLine))),
        ⟨0, 0, 0, deals.length⟩) := by
  have hget := buildMap_get_self deals h []
  simp only [diffDeals]
  have htag : deals.map (fun d =>
      match jsMapGet (deals.foldl (fun m d => jsMapSet m (diffKey d) d) []) (diffKey d) with
      | none => (d, ChangeType.isNew, ([] : List ChangeLine))
      | some old => (d, (diffClassify old d).1, (diffClassify old d).2)) =
      deals.map (fun d => (d, ChangeType.unchanged, ([] : List ChangeLine))) := by
    apply List.map_congr_left
    intro d hd
    rw [hget d hd]
    simp [diffClassify]
  rw [htag]
  have hrem : (deals.foldl (fun m d => jsMapSet m (diffKey d) d) []).filter
      (fun p => !(deals.map diffKey).contains p.1) = [] := by
    rw [List.filter_eq_nil]
    intro p hp
    rcases foldl_set_mem_keys deals [] p hp with h' | h'
    · simp at h'
    · simp [h']
  rw [hrem]
  refine congrArg₂ Prod.mk rfl ?_
  simp [List.filter_map, List.filter_eq_nil, Function.comp]

/-- First deal for the diff witness. -/
def diffDealA : Deal :=
  { dealOwner := "Alice", dealName := "Acme", stage := "proposal", acv := 100
    closingDate := none, modifiedDate := some 10, noteContent := "n1"
    descr := "", dealKey := "acme||alice" }

/-- Second deal for the diff witness (a different key). -/
def diffDealB : Deal :=
  { dealOwner := "Bob", dealName := "Zenith", stage := "discovery", acv := 40
    closingDate := none, modifiedDate := some 4, noteContent := "n2"
    descr := "", dealKey := "zenith||bob" }

/-- Witness for C9 at a concrete two-deal snapshot. -/
theorem diffDeals_self_witness :
    diffDeals [diffDealA, diffDealB] [diffDealA, diffDealB] =
      ([(diffDealA, ChangeType.unchanged, ([] : List ChangeLine)),
        (diffDealB, ChangeType.unchanged, ([] : List ChangeLine))],
       ⟨0, 0, 0, 2⟩) :=
  diffDeals_self [diffDealA, diffDealB] (by decide)

/-! ### C10: canonicalization is order- and duplicate-insensitive -/

theorem charListLe_total (a b : List Char) :
    charListLe a b = true ∨ charListLe b a = true := by
  induction a generalizing b with
  | nil => exact Or.inl rfl
  | cons x xs ih =>
    cases b with
    | nil => exact Or.inr rfl
    | cons y ys =>
      rcases lt_trichotomy x y with h | h | h
      · left
        simp [charListLe, h]
      · subst h
        rcases ih ys with h' | h'
        · left
          simp [charListLe, h']
        · right
          simp [charListLe, h']
      · right
        simp [charListLe, h]

theorem charListLe_trans : ∀ {a b c : List Char},
    charListLe a b = true → charListLe b c = true → charListLe a c = true
  | [], _, _, _, _ => rfl
  | x :: xs, [], _, hab, _ => by simp [charListLe] at hab
  | _ :: _, _ :: _, [], _, hbc => by simp [charListLe] at hbc
  | x :: xs, y :: ys, z :: zs, hab, hbc => by
    simp only [charListLe, Bool.or_eq_true, Bool.and_eq_true, decide_eq_true_eq] at hab hbc ⊢
    rcases hab with h1 | ⟨rfl, h1⟩
    · rcases hbc with h2 | ⟨rfl, h2⟩
      · exact Or.inl (lt_trans h1 h2)
      · exact Or.inl h1
    · rcases hbc with h2 | ⟨rfl, h2⟩
      · exact Or.inl h2
      · exact Or.inr ⟨rfl, charListLe_trans h1 h2⟩

theorem charListLe_antisymm : ∀ {a b : List Char},
    charListLe a b = true → charListLe b a = true → a = b
  | [], [], _, _ => rfl
  | [], _ :: _, _, hba => by simp [charListLe] at hba
  | _ :: _, [], hab, _ => by simp [charListLe] at hab
  | x :: xs, y :: ys, hab, hba => by
    simp only [charListLe, Bool.or_eq_true, Bool.and_eq_true, decide_eq_true_eq] at hab hba
    rcases hab with h1 | ⟨rfl, h1⟩
    · rcases hba with h2 | ⟨h2, _⟩
      · exact absurd (lt_trans h1 h2) (lt_irrefl x)
      · exact absurd h1 (h2 ▸ lt_irrefl x)
    · rcases hba with h2 | ⟨_, h2⟩
      · exact absurd h2 (lt_irrefl x)
      · rw [charListLe_antisymm h1 h2]

instance : IsTotal String (fun a b => strLeB a b = true) :=
  ⟨fun a b => charListLe_total a.data b.data⟩

instance : IsTrans String (fun a b => strLeB a b = true) :=
  ⟨fun _ _ _ hab hbc => charListLe_trans hab hbc⟩

instance : IsAntisymm String (fun a b => strLeB a b = true) :=
  ⟨fun a b hab hba => by
    cases a
    cases b
    exact congrArg String.mk (charListLe_antisymm hab hba)⟩

theorem mem_jsSetDedupAux (seen l : List String) (x : String) :
    x ∈ jsSetDedupAux seen l ↔ x ∈ l ∧ x ∉ seen := by
  induction l generalizing seen with
  | nil => simp [jsSetDedupAux]
  | cons y ys ih =>
    by_cases hy : y ∈ seen
    · rw [jsSetDedupAux, if_pos hy, ih]
      constructor
      · rintro ⟨hmem, hns⟩
        exact ⟨List.mem_cons_of_mem _ hmem, hns⟩
      · rintro ⟨hor, hns⟩
        rcases List.mem_cons.mp hor with rfl | hmem
        · exact absurd hy hns
        · exact ⟨hmem, hns⟩
    · rw [jsSetDedupAux, if_neg hy]
      constructor
      · intro hmem
        rcases List.mem_cons.mp hmem with rfl | hmem'
        · exact ⟨List.mem_cons_self _ _, hy⟩
        · have := (ih (y :: seen)).mp hmem'
          exact ⟨List.mem_cons_of_mem _ this.1,
            fun hs => this.2 (List.mem_cons_of_mem _ hs)⟩
      · rintro ⟨hor, hns⟩
        rcases List.mem_cons.mp hor with rfl | hmem
        · exact List.mem_cons_self _ _
        · by_cases hxy : x = y
          · subst hxy
            exact List.mem_cons_self _ _
          · exact List.mem_cons_of_mem _ ((ih (y :: seen)).mpr
              ⟨hmem, fun hs => by
                rcases List.mem_cons.mp hs with h | h
                · exact hxy h
                · exact hns h⟩)

theorem nodup_jsSetDedupAux (seen l : List String) :
    (jsSetDedupAux seen l).Nodup := by
  induction l generalizing seen with
  | nil => exact List.nodup_nil
  | cons y ys ih =>
    by_cases hy : y ∈ seen
    · rw [jsSetDedupAux, if_pos hy]
      exact ih seen
    · rw [jsSetDedupAux, if_neg hy]
      refine List.nodup_cons.mpr ⟨fun hmem => ?_, ih (y :: seen)⟩
      exact ((mem_jsSetDedupAux _ _ _).mp hmem).2 (List.mem_cons_self _ _)

theorem mem_jsSetDedup (l : List String) (x : String) :
    x ∈ jsSetDedup l ↔ x ∈ l := by
  rw [jsSetDedup, mem_jsSetDedupAux]
  simp

theorem jsSortStrings_jsSetDedup_eq_of_mem_iff (l1 l2 : List String)
    (hm : ∀ x, x ∈ l1 ↔ x ∈ l2) :
    jsSortStrings (jsSetDedup l1) = jsSortStrings (jsSetDedup l2) := by
  have hperm : (jsSetDedup l1).Perm (jsSetDedup l2) := by
    refine (List.perm_ext_iff_of_nodup ?_ ?_).mpr ?_
    · exact nodup_jsSetDedupAux [] l1
    · exact nodup_jsSetDedupAux [] l2
    · intro x
      rw [mem_jsSetDedup, mem_jsSetDedup]
      exact hm x
  refine List.eq_of_perm_of_sorted ?_
    (List.sorted_insertionSort _ _) (List.sorted_insertionSort _ _)
  exact ((List.perm_insertionSort _ _).trans hperm).trans
    (List.perm_insertionSort _ _).symm

/-- The trimmed non-empty notes (`rawNotes.map(n => n.trim()).filter(Boolean)`). -/
def trimmedNotes (rawNotes : List String) : List String :=
  (rawNotes.map jsTrim).filter (fun s => s ≠ "")

theorem notesUnique_eq_trimmed (rawNotes : List String) :
    notesUnique rawNotes = jsSortStrings (jsSetDedup (trimmedNotes rawNotes)) := rfl

theorem buildNotesCanonical_eq_of_mem_iff (l1 l2 : List String)
    (hm : ∀ x, x ∈ trimmedNotes l1 ↔ x ∈ trimmedNotes l2) :
    buildNotesCanonical l1 = buildNotesCanonical l2 := by
  have h : notesUnique l1 = notesUnique l2 := by
    rw [notesUnique_eq_trimmed, notesUnique_eq_trimmed]
    exact jsSortStrings_jsSetDedup_eq_of_mem_iff _ _ hm
  rw [buildNotesCanonical, buildNotesCanonical, h]

/-- C10: `buildNotesCanonical` is permutation-invariant, insensitive to
appended duplicates of elements already present, and insensitive to appended
whitespace-only strings — both the canonical string and the distinct count. -/
theorem buildNotesCanonical_invariance :
    (∀ l l' : List String, l.Perm l' →
      buildNotesCanonical l = buildNotesCanonical l') ∧
    (∀ (l : List String) (x : String), x ∈ l →
      buildNotesCanonical (l ++ [x]) = buildNotesCanonical l) ∧
    (∀ (l : List String) (w : String), jsTrim w = "" →
      buildNotesCanonical (l ++ [w]) = buildNotesCanonical l) := by
  refine ⟨?_, ?_, ?_⟩
  · intro l l' hp
    refine buildNotesCanonical_eq_of_mem_iff _ _ (fun x => ?_)
    exact ((hp.map jsTrim).filter _).mem_iff
  · intro l x hx
    by_cases ht : jsTrim x = ""
    · refine buildNotesCanonical_eq_of_mem_iff _ _ (fun y => ?_)
      simp [trimmedNotes, ht]
    · refine buildNotesCanonical_eq_of_mem_iff _ _ (fun y => ?_)
      have hmem : jsTrim x ∈ trimmedNotes l := by
        refine List.mem_filter.mpr ⟨List.mem_map_of_mem jsTrim hx, by simpa using ht⟩
      constructor
      · intro hy
        simp only [trimmedNotes, List.map_append, List.filter_append, List.mem_append] at hy
        rcases hy with hy | hy
        · exact hy
        · simp only [List.map_cons, List.map_nil] at hy
          have : y = jsTrim x := by
            rcases List.mem_filter.mp hy with ⟨hm', _⟩
            simpa using hm'
          exact this ▸ hmem
      · intro hy
        simp only [trimmedNotes, List.map_append, List.filter_append, List.mem_append]
        exact Or.inl hy
  · intro l w hw
    refine buildNotesCanonical_eq_of_mem_iff _ _ (fun y => ?_)
    simp [trimmedNotes, hw]

/-- Witness for C10 at concrete lists: a transposition, an exact duplicate,
and a whitespace-only extension. -/
theorem buildNotesCanonical_invariance_witness :
    buildNotesCanonical ["beta", "alpha"] = buildNotesCanonical ["alpha", "beta"] ∧
      buildNotesCanonical (["alpha", "beta"] ++ ["beta"]) =
        buildNotesCanonical ["alpha", "beta"] ∧
      buildNotesCanonical (["alpha", "beta"] ++ ["  "]) =
        buildNotesCanonical ["alpha", "beta"] :=
  ⟨buildNotesCanonical_invariance.1 ["beta", "alpha"] ["alpha", "beta"]
      (List.Perm.swap "alpha" "beta" []),
    buildNotesCanonical_invariance.2.1 ["alpha", "beta"] "beta" (by decide),
    buildNotesCanonical_invariance.2.2 ["alpha", "beta"] "  " (by decide)⟩

/-! ### C6: comma disambiguation in the currency parser -/

theorem lastIndexOfC_of_not_mem (c : Char) (l : List Char) (h : c ∉ l) :
    lastIndexOfC c l = -1 := by
  induction l with
  | nil => rfl
  | cons x rest ih =>
    have hx : x ≠ c := fun hh => h (hh ▸ List.mem_cons_self _ _)
    rw [lastIndexOfC]
    simp only [ih (fun hh => h (List.mem_cons_of_mem _ hh)), hx]
    norm_num

theorem lastIndexOfC_lt_length (c : Char) (l : List Char) :
    lastIndexOfC c l < (l.length : ℤ) := by
  induction l with
  | nil => simp [lastIndexOfC]
  | cons x rest ih =>
    rw [lastIndexOfC]
    simp only [List.length_cons]
    split_ifs <;> push_cast <;> omega

theorem lastIndexOfC_append_of_not_mem_right (c : Char) (a suffix : List Char)
    (h : c ∉ suffix) : lastIndexOfC c (a ++ suffix) = lastIndexOfC c a := by
  induction a with
  | nil => simpa using lastIndexOfC_of_not_mem c suffix h
  | cons x rest ih => rw [List.cons_append, lastIndexOfC, lastIndexOfC, ih]

theorem lastIndexOfC_append_comma (a b : List Char) (ha : ',' ∉ a) (hb : ',' ∉ b) :
    lastIndexOfC ',' (a ++ ',' :: b) = (a.length : ℤ) := by
  induction a with
  | nil =>
    rw [List.nil_append, lastIndexOfC, lastIndexOfC_of_not_mem ',' b hb]
    norm_num
  | cons x rest ih =>
    have hx : x ≠ ',' := fun hh => ha (hh ▸ List.mem_cons_self _ _)
    rw [List.cons_append, lastIndexOfC,
      ih (fun hh => ha (List.mem_cons_of_mem _ hh))]
    simp only [List.length_cons]
    have : (0 : ℤ) ≤ rest.length := Int.ofNat_nonneg _
    rw [if_pos (by omega)]
    push_cast
    ring

theorem replaceFirstComma_append (xs ys : List Char) (h : ',' ∉ xs) :
    replaceFirstComma (xs ++ ',' :: ys) = xs ++ '.' :: ys := by
  induction xs with
  | nil => rfl
  | cons x rest ih =>
    have hx : x ≠ ',' := fun hh => h (hh ▸ List.mem_cons_self _ _)
    rw [List.cons_append, replaceFirstComma, if_neg hx,
      ih (fun hh => h (List.mem_cons_of_mem _ hh)), List.cons_append]

/-- C6: the comma-disambiguation rule of `parseACV`: a single comma followed
by at most two digits and positioned after every dot is a decimal separator
(dots stripped, comma becomes the decimal point); whenever the code's
disambiguation condition fails, every comma is removed as a thousand
separator; and the European-format example "12.345,67" parses to 12345.67
(in home currency CAD). -/
theorem parseACV_comma_disambiguation :
    (∀ a b : List Char, ',' ∉ a → (∀ c ∈ b, c.isDigit = true) → b.length ≤ 2 →
      disambiguateCommas (a ++ ',' :: b) =
        (a.filter (fun c => c ≠ '.')) ++ '.' :: b) ∧
    (∀ cs : List Char,
      ¬(commaCount cs = 1 ∧ (cs.length : ℤ) - lastIndexOfC ',' cs - 1 ≤ 2 ∧
        lastIndexOfC '.' cs < lastIndexOfC ',' cs) →
      disambiguateCommas cs = cs.filter (fun c => c ≠ ',')) ∧
    parseACV "12.345,67" = ⟨mkRat 1234567 100, "CAD", true, "12.345,67"⟩ := by
  refine ⟨?_, ?_, by decide⟩
  · intro a b ha hb hlen
    have hcb : ',' ∉ b := fun h => by simpa using hb ',' h
    have hdb : '.' ∉ b := fun h => by simpa using hb '.' h
    have hcc : commaCount (a ++ ',' :: b) = 1 := by
      rw [commaCount, List.countP_append, List.countP_cons]
      rw [List.countP_eq_zero.mpr (fun c hc => by
          simp only [decide_eq_true_eq]
          exact fun hh => ha (hh ▸ hc)),
        List.countP_eq_zero.mpr (fun c hc => by
          simp only [decide_eq_true_eq]
          exact fun hh => hcb (hh ▸ hc))]
      simp
    have hlast : lastIndexOfC ',' (a ++ ',' :: b) = (a.length : ℤ) :=
      lastIndexOfC_append_comma a b ha hcb
    have hdot2 : lastIndexOfC '.' (a ++ ',' :: b) < (a.length : ℤ) := by
      have heq : a ++ ',' :: b = (a ++ [',']) ++ b := by simp
      rw [heq, lastIndexOfC_append_of_not_mem_right '.' (a ++ [',']) b hdb,
        lastIndexOfC_append_of_not_mem_right '.' a [','] (by simp)]
      exact lastIndexOfC_lt_length '.' a
    have hlen2 : ((a ++ ',' :: b).length : ℤ) - (a.length : ℤ) - 1 ≤ 2 := by
      simp only [List.length_append, List.length_cons]
      push_cast
      omega
    have hfb : b.filter (fun c => c ≠ '.') = b :=
      List.filter_eq_self.mpr (fun c hc => by
        simp only [decide_eq_true_eq]
        intro hh
        have hd := hb c hc
        rw [hh] at hd
        simp at hd)
    rw [disambiguateCommas]
    rw [if_pos (by
      have : (',' : Char) ∈ a ++ ',' :: b := by simp
      exact List.elem_iff.mpr this)]
    rw [if_pos (by simp [hcc, hlast, hlen2, hdot2, hlen])]
    have hfilter : (a ++ ',' :: b).filter (fun c => c ≠ '.') =
        a.filter (fun c => c ≠ '.') ++ ',' :: b := by
      rw [List.filter_append, List.filter_cons, if_pos (by decide), hfb]
    rw [hfilter]
    exact replaceFirstComma_append _ _ (fun hh => ha (List.mem_filter.mp hh).1)
  · intro cs hneg
    rw [disambiguateCommas]
    by_cases hmem : cs.contains ','
    · rw [if_pos hmem, if_neg ?_]
      intro hcond
      rw [Bool.and_eq_true, Bool.and_eq_true] at hcond
      obtain ⟨⟨h1, h2⟩, h3⟩ := hcond
      exact hneg ⟨by simpa using h1, by simpa using h2, by simpa using h3⟩
    · rw [if_neg hmem]
      rw [List.filter_eq_self.mpr (fun c hc => by
        simp only [decide_eq_true_eq]
        intro hh
        subst hh
        exact hmem (by simpa using hc))]

/-- Witness for C6 at the characters of "12.345,67". -/
theorem parseACV_comma_disambiguation_witness :
    disambiguateCommas (['1', '2', '.', '3', '4', '5'] ++ ',' :: ['6', '7']) =
      (['1', '2', '.', '3', '4', '5'].filter (fun c => c ≠ '.')) ++ '.' :: ['6', '7'] :=
  parseACV_comma_disambiguation.1 ['1', '2', '.', '3', '4', '5'] ['6', '7']
    (by decide) (by decide) (by decide)

/-! ### C1: one Deal per key, notes accumulated across all rows -/

/-- The keys of a list of deals, in order. -/
def dealKeys (deals : List Deal) : List String :=
  deals.map (fun d => d.dealKey)

/-- The non-empty trimmed notes of all rows whose key is `k`, in order. -/
def notesOf (deals : List Deal) (k : String) : List String :=
  ((deals.filter (fun d => d.dealKey = k)).map
    (fun d => jsTrim d.noteContent)).filter (fun s => s ≠ "")

/-- Loop invariant of the notes map: it holds exactly the keys seen so far,
each mapped to the non-empty trimmed notes of all its rows. -/
def NotesInv (processed : List Deal) (nm : List (String × List String)) : Prop :=
  ∀ k, jsMapGet nm k =
    if k ∈ dealKeys processed then some (notesOf processed k) else none

/-- Loop invariant of the winning-deal map: its keys are exactly the keys
seen so far without duplicates, and every entry stores one of the processed
rows under that row's own key. -/
def DealMapInv (processed : List Deal) (dm : List (String × Deal)) : Prop :=
  (dm.map Prod.fst).Nodup ∧
    (∀ k, k ∈ dm.map Prod.fst ↔ k ∈ dealKeys processed) ∧
    (∀ p ∈ dm, p.2.dealKey = p.1 ∧ p.2 ∈ processed)

theorem jsMapGet_eq_none_iff {α : Type} (m : List (String × α)) (k : String) :
    jsMapGet m k = none ↔ k ∉ m.map Prod.fst := by
  rw [jsMapGet, Option.map_eq_none', List.find?_eq_none]
  constructor
  · intro h hk
    obtain ⟨p, hp, hp1⟩ := List.mem_map.mp hk
    exact absurd (by simpa using hp1) (by simpa using h p hp)
  · intro h p hp
    simp only [decide_eq_true_eq]
    intro hk
    exact h (List.mem_map.mpr ⟨p, hp, hk⟩)

theorem keys_jsMapSet_of_mem {α : Type} (m : List (String × α)) (k : String) (v : α)
    (h : k ∈ m.map Prod.fst) :
    (jsMapSet m k v).map Prod.fst = m.map Prod.fst := by
  induction m with
  | nil => simp at h
  | cons p rest ih =>
    obtain ⟨k', v'⟩ := p
    by_cases hk : k' = k
    · rw [jsMapSet, if_pos hk]
      simp [hk]
    · rw [jsMapSet, if_neg hk]
      have : k ∈ rest.map Prod.fst := by
        rcases List.mem_map.mp h with ⟨q, hq, hq1⟩
        rcases List.mem_cons.mp hq with rfl | hq'
        · exact absurd hq1 hk
        · exact List.mem_map.mpr ⟨q, hq', hq1⟩
      simp [ih this]

theorem keys_jsMapSet_of_not_mem {α : Type} (m : List (String × α)) (k : String) (v : α)
    (h : k ∉ m.map Prod.fst) :
    (jsMapSet m k v).map Prod.fst = m.map Prod.fst ++ [k] := by
  induction m with
  | nil => rfl
  | cons p rest ih =>
    obtain ⟨k', v'⟩ := p
    by_cases hk : k' = k
    · exact absurd (by simp [hk]) h
    · rw [jsMapSet, if_neg hk]
      have : k ∉ rest.map Prod.fst := fun hh => h (by simp [hh])
      simp [ih this]

theorem notesOf_append (processed : List Deal) (d : Deal) (k : String) :
    notesOf (processed ++ [d]) k =
      notesOf processed k ++
        (if d.dealKey = k ∧ jsTrim d.noteContent ≠ "" then [jsTrim d.noteContent]
         else []) := by
  rw [notesOf, notesOf, List.filter_append, List.map_append, List.filter_append]
  congr 1
  by_cases hk : d.dealKey = k
  · by_cases hn : jsTrim d.noteContent = "" <;> simp [hk, hn]
  · simp [hk]

theorem notesOf_eq_nil_of_not_mem (processed : List Deal) (k : String)
    (h : k ∉ dealKeys processed) : notesOf processed k = [] := by
  have h0 : processed.filter (fun d => decide (d.dealKey = k)) = [] :=
    List.filter_eq_nil.mpr (fun d hd => by
      simp only [decide_eq_true_eq]
      intro hkk
      exact h (List.mem_map.mpr ⟨d, hd, hkk⟩))
  rw [notesOf, h0]
  rfl

theorem notesStep_inv (processed : List Deal) (d : Deal)
    (nm : List (String × List String)) (h : NotesInv processed nm) :
    NotesInv (processed ++ [d]) (notesStep nm d) := by
  intro k
  have hkeys : dealKeys (processed ++ [d]) = dealKeys processed ++ [d.dealKey] := by
    simp [dealKeys]
  by_cases hk : k = d.dealKey
  · subst hk
    have hmemk : d.dealKey ∈ dealKeys (processed ++ [d]) := by simp [hkeys]
    rw [if_pos hmemk]
    by_cases hmem : d.dealKey ∈ dealKeys processed
    · have hget : jsMapGet nm d.dealKey = some (notesOf processed d.dealKey) := by
        rw [h d.dealKey, if_pos hmem]
      by_cases hn : jsTrim d.noteContent = ""
      · rw [show notesStep nm d = nm by
          simp [notesStep, hget, hn]]
        rw [hget, notesOf_append]
        simp [hn]
      · have hnc : d.noteContent ≠ "" := fun hh => hn (by rw [hh]; rfl)
        rw [show notesStep nm d =
            jsMapSet nm d.dealKey ((jsMapGet nm d.dealKey).getD [] ++ [jsTrim d.noteContent]) by
          simp [notesStep, hget, hn, hnc]]
        rw [jsMapGet_set_self, hget, notesOf_append]
        simp [hn]
    · have hget : jsMapGet nm d.dealKey = none := by
        rw [h d.dealKey, if_neg hmem]
      have hnil : notesOf processed d.dealKey = [] := notesOf_eq_nil_of_not_mem _ _ hmem
      by_cases hn : jsTrim d.noteContent = ""
      · rw [show notesStep nm d = jsMapSet nm d.dealKey [] by
          simp [notesStep, hget, hn]]
        rw [jsMapGet_set_self, notesOf_append]
        simp [hn, hnil]
      · have hnc : d.noteContent ≠ "" := fun hh => hn (by rw [hh]; rfl)
        rw [show notesStep nm d =
            jsMapSet (jsMapSet nm d.dealKey []) d.dealKey
              ((jsMapGet (jsMapSet nm d.dealKey []) d.dealKey).getD []
                ++ [jsTrim d.noteContent]) by
          simp [notesStep, hget, hn, hnc]]
        rw [jsMapGet_set_self, jsMapGet_set_self, notesOf_append]
        simp [hn, hnil]
  · have hset : jsMapGet (notesStep nm d) k = jsMapGet nm k := by
      simp only [notesStep]
      split_ifs <;> simp [jsMapGet_set_ne _ _ _ _ hk]
    have hmiff : (k ∈ dealKeys (processed ++ [d])) ↔ k ∈ dealKeys processed := by
      rw [hkeys]
      simp [hk]
    have hc : ¬(d.dealKey = k ∧ jsTrim d.noteContent ≠ "") := fun hh => hk hh.1.symm
    rw [hset, h k, notesOf_append]
    simp [hc, hmiff]

theorem dealStep_inv (processed : List Deal) (d : Deal)
    (dm : List (String × Deal)) (h : DealMapInv processed dm) :
    DealMapInv (processed ++ [d]) (dealStep dm d) := by
  obtain ⟨hnodup, hmemiff, hentries⟩ := h
  have hkeys : dealKeys (processed ++ [d]) = dealKeys processed ++ [d.dealKey] := by
    simp [dealKeys]
  cases hget : jsMapGet dm d.dealKey with
  | none =>
    have hnotmem : d.dealKey ∉ dm.map Prod.fst := (jsMapGet_eq_none_iff _ _).mp hget
    have hset : dealStep dm d = jsMapSet dm d.dealKey d := by
      rw [dealStep, hget]
    rw [hset]
    refine ⟨?_, ?_, ?_⟩
    · rw [keys_jsMapSet_of_not_mem _ _ _ hnotmem]
      simp only [List.nodup_append, List.nodup_singleton]
      exact ⟨hnodup, trivial, by simpa using fun hh => hnotmem hh⟩
    · intro k
      rw [keys_jsMapSet_of_not_mem _ _ _ hnotmem, hkeys]
      simp [hmemiff k]
    · intro p hp
      rcases mem_jsMapSet _ _ _ _ hp with hp' | hp'
      · obtain ⟨h1, h2⟩ := hentries p hp'
        exact ⟨h1, List.mem_append_left _ h2⟩
      · subst hp'
        exact ⟨rfl, List.mem_append_right _ (List.mem_singleton_self _)⟩
  | some existing =>
    have hmemkey : d.dealKey ∈ dm.map Prod.fst := by
      have := jsMapGet_mem _ _ _ hget
      exact List.mem_map.mpr ⟨_, this, rfl⟩
    have hunchanged : DealMapInv (processed ++ [d]) dm := by
      refine ⟨hnodup, ?_, ?_⟩
      · intro k
        rw [hkeys]
        constructor
        · intro hh
          exact List.mem_append_left _ ((hmemiff k).mp hh)
        · intro hh
          rcases List.mem_append.mp hh with hh' | hh'
          · exact (hmemiff k).mpr hh'
          · rw [List.mem_singleton.mp hh']
            exact hmemkey
      · intro p hp
        obtain ⟨h1, h2⟩ := hentries p hp
        exact ⟨h1, List.mem_append_left _ h2⟩
    have hreplaced : DealMapInv (processed ++ [d]) (jsMapSet dm d.dealKey d) := by
      refine ⟨?_, ?_, ?_⟩
      · rw [keys_jsMapSet_of_mem _ _ _ hmemkey]
        exact hnodup
      · intro k
        rw [keys_jsMapSet_of_mem _ _ _ hmemkey]
        exact hunchanged.2.1 k
      · intro p hp
        rcases mem_jsMapSet _ _ _ _ hp with hp' | hp'
        · obtain ⟨h1, h2⟩ := hentries p hp'
          exact ⟨h1, List.mem_append_left _ h2⟩
        · subst hp'
          exact ⟨rfl, List.mem_append_right _ (List.mem_singleton_self _)⟩
    rcases hd : d.modifiedDate with _ | dd
    · rw [show dealStep dm d = dm by simp [dealStep, hget, hd]]
      exact hunchanged
    · rcases he : existing.modifiedDate with _ | ee
      · rw [show dealStep dm d = jsMapSet dm d.dealKey d by simp [dealStep, hget, hd, he]]
        exact hreplaced
      · by_cases hlt : ee < dd
        · rw [show dealStep dm d = jsMapSet dm d.dealKey d by
            simp [dealStep, hget, hd, he, hlt]]
          exact hreplaced
        · rw [show dealStep dm d = dm by simp [dealStep, hget, hd, he, hlt]]
          exact hunchanged

theorem dedupLoop_inv (rest : List Deal) :
    ∀ (processed : List Deal) (dm : List (String × Deal))
      (nm : List (String × List String)),
      NotesInv processed nm → DealMapInv processed dm →
      NotesInv (processed ++ rest) (dedupLoop rest dm nm).2 ∧
        DealMapInv (processed ++ rest) (dedupLoop rest dm nm).1 := by
  induction rest with
  | nil =>
    intro processed dm nm h1 h2
    simpa [dedupLoop] using And.intro h1 h2
  | cons d rest' ih =>
    intro processed dm nm h1 h2
    rw [dedupLoop]
    have := ih (processed ++ [d]) (dealStep dm d) (notesStep nm d)
      (notesStep_inv processed d nm h1) (dealStep_inv processed d dm h2)
    simpa [List.append_assoc] using this

theorem deduplicateDeals_inv (deals : List Deal) :
    NotesInv deals (dedupLoop deals [] []).2 ∧
      DealMapInv deals (dedupLoop deals [] []).1 := by
  have h1 : NotesInv [] [] := by
    intro k
    simp [jsMapGet, dealKeys]
  have h2 : DealMapInv [] [] := by
    refine ⟨List.nodup_nil, ?_, ?_⟩ <;> simp [dealKeys]
  simpa using dedupLoop_inv deals [] [] [] h1 h2

/-- C1: `deduplicateDeals` produces exactly one Deal per distinct deal key
(the key being the normalized name+owner identity attached by `processRow`),
and each surviving Deal's canonical note history is the canonicalization of
the non-empty trimmed notes of ALL input rows sharing its key, not just the
winning row's note. -/
theorem dedup_one_deal_per_key_notes_union (deals : List Deal)
    (hk : ∀ d ∈ deals, d.dealKey = makeDealKey d.dealName d.dealOwner) :
    ((deduplicateDeals deals).map (fun o => o.toDeal.dealKey)).Nodup ∧
      (∀ k, k ∈ (deduplicateDeals deals).map (fun o => o.toDeal.dealKey) ↔
        k ∈ dealKeys deals) ∧
      (∀ o ∈ deduplicateDeals deals,
        o.notesCanonical = (buildNotesCanonical (notesOf deals o.toDeal.dealKey)).canonical ∧
          o.notesCount = (buildNotesCanonical (notesOf deals o.toDeal.dealKey)).count) := by
  obtain ⟨hN, hD⟩ := deduplicateDeals_inv deals
  obtain ⟨hnodup, hmemiff, hentries⟩ := hD
  have hmapkeys : (deduplicateDeals deals).map (fun o => o.toDeal.dealKey) =
      (dedupLoop deals [] []).1.map Prod.fst := by
    rw [deduplicateDeals]
    rw [List.map_map]
    refine List.map_congr_left (fun p hp => ?_)
    exact (hentries p hp).1
  refine ⟨?_, ?_, ?_⟩
  · rw [hmapkeys]
    exact hnodup
  · intro k
    rw [hmapkeys]
    exact hmemiff k
  · intro o ho
    rw [deduplicateDeals] at ho
    obtain ⟨p, hp, rfl⟩ := List.mem_map.mp ho
    have hkey : p.2.dealKey = p.1 := (hentries p hp).1
    have hmem : p.1 ∈ dealKeys deals :=
      (hmemiff p.1).mp (List.mem_map.mpr ⟨p, hp, rfl⟩)
    have hget : jsMapGet (dedupLoop deals [] []).2 p.2.dealKey =
        some (notesOf deals p.2.dealKey) := by
      rw [hN p.2.dealKey, if_pos (hkey ▸ hmem)]
    simp only [hget]
    exact ⟨rfl, rfl⟩

/-- Every deduplicated Deal is one of the input rows (with notes attached). -/
theorem deduplicateDeals_subset (deals : List Deal) :
    ∀ o ∈ deduplicateDeals deals, o.toDeal ∈ deals := by
  obtain ⟨_, hD⟩ := deduplicateDeals_inv deals
  intro o ho
  rw [deduplicateDeals] at ho
  obtain ⟨p, hp, rfl⟩ := List.mem_map.mp ho
  exact (hD.2.2 p hp).2

/-- First of two concrete rows sharing a key, with distinct notes. -/
def noteRowOne : Deal :=
  { dealOwner := "Alice", dealName := "Acme", stage := "proposal", acv := 100
    closingDate := none, modifiedDate := some 10, noteContent := "Budget confirmed."
    descr := "", dealKey := makeDealKey "Acme" "Alice" }

/-- Second concrete row with the same key and a different note. -/
def noteRowTwo : Deal :=
  { dealOwner := "Alice", dealName := "Acme", stage := "negotiation", acv := 120
    closingDate := none, modifiedDate := some 20, noteContent := "Legal engaged."
    descr := "", dealKey := makeDealKey "Acme" "Alice" }

/-! ### C7: sign of the ACV carried by deduplicated Deals -/

/-- The characters of a plain money string: digits, comma, dot, dollar sign
and space (no minus sign and no parentheses). -/
def acvCleanChars : List Char :=
  ['0', '1', '2', '3', '4', '5', '6', '7', '8', '9', '.', ',', '$', ' ']

/-- The raw ACV cell of the row is a plain money string. -/
def acvClean (row : RawRow) : Prop :=
  ∀ c ∈ (rawGet row "Annual Contract Value").data, c ∈ acvCleanChars

theorem mem_of_mem_dropWhile {p : Char → Bool} {c : Char} :
    ∀ {l : List Char}, c ∈ l.dropWhile p → c ∈ l := by
  intro l
  induction l with
  | nil => exact id
  | cons x rest ih =>
    intro h
    rw [List.dropWhile_cons] at h
    split at h
    · exact List.mem_cons_of_mem _ (ih h)
    · exact h

theorem mem_of_mem_jsTrimChars {c : Char} {l : List Char}
    (h : c ∈ jsTrimChars l) : c ∈ l := by
  rw [jsTrimChars, List.mem_reverse] at h
  have h1 := mem_of_mem_dropWhile h
  rw [List.mem_reverse] at h1
  exact mem_of_mem_dropWhile h1

theorem mem_upper_of_clean {s : String} (h : ∀ c ∈ s.data, c ∈ acvCleanChars) :
    ∀ c ∈ (jsToUpper (jsTrim s)).data, c ∈ acvCleanChars := by
  intro c hc
  simp only [jsToUpper, jsTrim, List.mem_map] at hc
  obtain ⟨c', hc', rfl⟩ := hc
  have hcl : c' ∈ acvCleanChars := h c' (mem_of_mem_jsTrimChars hc')
  have hup : ∀ x ∈ acvCleanChars, x.toUpper = x := by decide
  rw [hup c' hcl]
  exact hcl

theorem parenNeg_eq_false {l : List Char} (h : '(' ∉ l) : parenNeg l = false := by
  induction l with
  | nil => rfl
  | cons c rest ih =>
    have hc : c ≠ '(' := fun hh => h (hh ▸ List.mem_cons_self _ _)
    rw [parenNeg, if_neg hc]
    exact ih (fun hh => h (List.mem_cons_of_mem _ hh))

theorem mem_replaceFirstComma {c : Char} :
    ∀ {l : List Char}, c ∈ replaceFirstComma l → c ∈ l ∨ c = '.' := by
  intro l
  induction l with
  | nil => intro h; exact Or.inl h
  | cons x rest ih =>
    intro h
    rw [replaceFirstComma] at h
    split at h
    · rcases List.mem_cons.mp h with rfl | hmem
      · exact Or.inr rfl
      · exact Or.inl (List.mem_cons_of_mem _ hmem)
    · rcases List.mem_cons.mp h with rfl | hmem
      · exact Or.inl (List.mem_cons_self _ _)
      · rcases ih hmem with h' | h'
        · exact Or.inl (List.mem_cons_of_mem _ h')
        · exact Or.inr h'

theorem not_minus_disambiguateCommas {l : List Char} (h : '-' ∉ l) :
    '-' ∉ disambiguateCommas l := by
  intro hmem
  rw [disambiguateCommas] at hmem
  dsimp only at hmem
  split_ifs at hmem
  · rcases mem_replaceFirstComma hmem with h' | h'
    · exact h (List.mem_of_mem_filter h')
    · exact absurd h' (by decide)
  · exact h (List.mem_of_mem_filter hmem)
  · exact h hmem

theorem jsParseFloat_nonneg {cs : List Char} (h : '-' ∉ cs) :
    0 ≤ jsOrZero (jsParseFloat cs) := by
  have hval : ∀ (sign : Int) (rest : List Char), 0 ≤ sign →
      0 ≤ jsOrZero
        (let intPart := rest.takeWhile Char.isDigit
         let rest2 := rest.dropWhile Char.isDigit
         let fracPart :=
           match rest2 with
           | '.' :: r => r.takeWhile Char.isDigit
           | _ => []
         if intPart.isEmpty && fracPart.isEmpty then none
         else
           let intVal : ℕ := intPart.foldl (fun a c => 10 * a + (c.toNat - 48)) 0
           let fracVal : ℕ := fracPart.foldl (fun a c => 10 * a + (c.toNat - 48)) 0
           some (mkRat (sign * (intVal * 10 ^ fracPart.length + fracVal))
             (10 ^ fracPart.length))) := by
    intro sign rest hsign
    simp only
    split_ifs
    · simp [jsOrZero]
    · simp only [jsOrZero]
      refine Rat.mkRat_nonneg ?_ _
      positivity
  cases cs with
  | nil => exact hval 1 [] (by norm_num)
  | cons c r =>
    have hc : c ≠ '-' := fun hh => h (hh ▸ List.mem_cons_self _ _)
    by_cases hp : c = '+'
    · rw [jsParseFloat]
      simp only [if_neg hc, if_pos hp]
      exact hval 1 r (by norm_num)
    · rw [jsParseFloat]
      simp only [if_neg hc, if_neg hp]
      exact hval 1 (c :: r) (by norm_num)

theorem parseACV_nonneg (s : String) (h : ∀ c ∈ s.data, c ∈ acvCleanChars) :
    0 ≤ (parseACV s).value := by
  by_cases hs : s = ""
  · subst hs
    rw [parseACV]
    norm_num
  · rw [parseACV, if_neg hs]
    simp only
    have hupper := mem_upper_of_clean h
    have hparen : parenNeg (jsToUpper (jsTrim s)).data = false :=
      parenNeg_eq_false (fun hh => by
        have := hupper '(' hh
        revert this
        decide)
    rw [hparen]
    simp only [Bool.false_and, Bool.false_eq_true, if_false]
    refine jsParseFloat_nonneg (not_minus_disambiguateCommas (fun hh => ?_))
    have := hupper '-' (List.mem_of_mem_filter hh)
    revert this
    decide

/-- C7 (amended): every Deal in the deduplicated snapshot carries the
parsed ACV of one of its rows unchanged; if every input row's raw ACV cell
is a plain money string (digits, comma, dot, `$`, space — no minus sign and
no parentheses), every Deal's `acv` is non-negative.  A parenthesized
amount, however, is NOT excluded and yields a Deal with a negative `acv`. -/
theorem pipeline_acv_nonneg (pd : String → Option Int) (rows : List RawRow)
    (h : ∀ row ∈ rows, acvClean row) :
    ∀ o ∈ deduplicateDeals ((rows.filterMap (processRow pd)).filter validateRow),
      0 ≤ o.toDeal.acv := by
  intro o ho
  have hmem := deduplicateDeals_subset _ o ho
  obtain ⟨row, hrow, hproc⟩ := List.mem_filterMap.mp (List.mem_of_mem_filter hmem)
  have hacv : o.toDeal.acv = (parseACV (rawGet row "Annual Contract Value")).value := by
    rw [processRow] at hproc
    split_ifs at hproc
    have heq := Option.some.inj hproc
    rw [← heq]
  rw [hacv]
  exact parseACV_nonneg _ (h row hrow)

/-- A raw row whose ACV cell is a parenthesized (negative) amount. -/
def parenRawRow : RawRow :=
  [("Deal Owner", "Alice"), ("Deal Name", "Acme"),
   ("Annual Contract Value", "($1,234.56)")]

/-- A date parser that treats every cell as an unparsable date. -/
def noDateParse : String → Option Int := fun _ => none

/-- Counterexample for C7 as stated: the row with ACV "($1,234.56)" passes
the currency filter and validation and becomes a deduplicated Deal whose
`acv` is the negative number -1234.56. -/
theorem pipeline_negative_acv_counterexample :
    (deduplicateDeals (([parenRawRow].filterMap (processRow noDateParse)).filter
        validateRow)).map (fun o => o.toDeal.acv) = [-(mkRat 123456 100)] ∧
      -(mkRat 123456 100) < 0 := by
  constructor
  · decide
  · decide

/-- A raw row whose ACV cell is a plain positive money string. -/
def cleanRawRow : RawRow :=
  [("Deal Owner", "Alice"), ("Deal Name", "Acme"),
   ("Annual Contract Value", "$1,234.56")]

/-- Witness for C7's amended theorem at a concrete clean row. -/
theorem pipeline_acv_nonneg_witness :
    (∀ row ∈ [cleanRawRow], acvClean row) ∧
      ∀ o ∈ deduplicateDeals (([cleanRawRow].filterMap (processRow noDateParse)).filter
          validateRow), 0 ≤ o.toDeal.acv :=
  ⟨by
    intro row hrow
    rw [List.mem_singleton] at hrow
    subst hrow
    exact (by decide :
      ∀ c ∈ (rawGet cleanRawRow "Annual Contract Value").data, c ∈ acvCleanChars),
   pipeline_acv_nonneg noDateParse [cleanRawRow] (by
    intro row hrow
    rw [List.mem_singleton] at hrow
    subst hrow
    exact (by decide :
      ∀ c ∈ (rawGet cleanRawRow "Annual Contract Value").data, c ∈ acvCleanChars))⟩

/-! ### C8: the two fatal import errors of `parseCSV` -/

theorem findHeader_eq_none_iff (l : List (List String)) (n : Nat) :
    findHeader n l = none ↔
      ∀ row ∈ l, ¬("Deal Owner" ∈ row ∧ "Deal Name" ∈ row) := by
  induction l generalizing n with
  | nil => simp [findHeader]
  | cons r rest ih =>
    rw [findHeader]
    by_cases hc : (r.contains "Deal Owner" && r.contains "Deal Name") = true
    · rw [if_pos hc]
      rw [Bool.and_eq_true] at hc
      have hmem : "Deal Owner" ∈ r ∧ "Deal Name" ∈ r :=
        ⟨List.elem_iff.mp hc.1, List.elem_iff.mp hc.2⟩
      constructor
      · intro h
        cases h
      · intro h
        exact absurd hmem (h r (List.mem_cons_self _ _))
    · rw [if_neg hc, ih]
      have hhead : ¬("Deal Owner" ∈ r ∧ "Deal Name" ∈ r) := by
        intro hmem
        exact hc (Bool.and_eq_true _ _ ▸
          ⟨List.elem_iff.mpr hmem.1, List.elem_iff.mpr hmem.2⟩)
      constructor
      · intro h row hrow
        rcases List.mem_cons.mp hrow with rfl | hrow'
        · exact hhead
        · exact h row hrow'
      · intro h row hrow
        exact h row (List.mem_cons_of_mem _ hrow)

/-- C8: `parseCSV` raises "No data found in CSV file." exactly when the
tokenized input has no rows at all, raises "Could not find header row."
exactly when there are rows but none among the first 20 contains both an
exact "Deal Owner" and an exact "Deal Name" field, raises nothing else, and
in every other case returns the data rows without raising. -/
theorem parseCSV_error_spec (text : String) :
    (parseCSV text = Except.error "No data found in CSV file." ↔
      parseCSVText (stripBOM text) = []) ∧
    (parseCSV text = Except.error "Could not find header row." ↔
      (parseCSVText (stripBOM text) ≠ [] ∧
        ∀ row ∈ (parseCSVText (stripBOM text)).take 20,
          ¬("Deal Owner" ∈ row ∧ "Deal Name" ∈ row))) ∧
    (∀ e, parseCSV text = Except.error e →
      e = "No data found in CSV file." ∨ e = "Could not find header row.") ∧
    ((parseCSVText (stripBOM text) ≠ [] ∧
      ∃ row ∈ (parseCSVText (stripBOM text)).take 20,
        "Deal Owner" ∈ row ∧ "Deal Name" ∈ row) →
      ∃ rows, parseCSV text = Except.ok rows) := by
  by_cases h0 : parseCSVText (stripBOM text) = []
  · have hrun : parseCSV text = Except.error "No data found in CSV file." := by
      rw [parseCSV, if_pos (by rw [h0]; rfl)]
    refine ⟨by simp [hrun, h0], ?_, ?_, ?_⟩
    · rw [hrun]
      simp [h0]
    · intro e he
      rw [hrun] at he
      exact Or.inl (Except.error.inj he).symm
    · rintro ⟨hne, _⟩
      exact absurd h0 hne
  · have hlen : ¬(parseCSVText (stripBOM text)).length = 0 :=
      fun hh => h0 (List.length_eq_zero.mp hh)
    cases hf : findHeader 0 ((parseCSVText (stripBOM text)).take 20) with
    | none =>
      have hrun : parseCSV text = Except.error "Could not find header row." := by
        rw [parseCSV, if_neg hlen, hf]
      have hall := (findHeader_eq_none_iff _ _).mp hf
      refine ⟨?_, ?_, ?_, ?_⟩
      · rw [hrun]
        constructor
        · intro h
          exact absurd (Except.error.inj h) (by decide)
        · intro h
          exact absurd h h0
      · rw [hrun]
        simp only [true_iff, eq_self_iff_true]
        exact ⟨h0, hall⟩
      · intro e he
        rw [hrun] at he
        exact Or.inr (Except.error.inj he).symm
      · rintro ⟨_, row, hrow, hboth⟩
        exact absurd hboth (hall row hrow)
    | some p =>
      have hrun : parseCSV text =
          Except.ok ((((parseCSVText (stripBOM text)).drop (p.1 + 1)).filter
            keepRow).map (rowToObj p.2)) := by
        rw [parseCSV, if_neg hlen, hf]
      refine ⟨?_, ?_, ?_, ?_⟩
      · rw [hrun]
        simp [h0]
      · rw [hrun]
        constructor
        · intro h
          cases h
        · rintro ⟨_, hall⟩
          rw [← findHeader_eq_none_iff _ 0] at hall
          rw [hf] at hall
          cases hall
      · intro e he
        rw [hrun] at he
        cases he
      · intro _
        exact ⟨_, hrun⟩

/-- Witness for C8: the empty import fails with the no-data error, and a
concrete import whose second row is the header parses without raising. -/
theorem parseCSV_error_spec_witness :
    parseCSV "" = Except.error "No data found in CSV file." ∧
      ∃ rows, parseCSV "x\nDeal Owner,Deal Name\nAlice,Acme" = Except.ok rows :=
  ⟨(parseCSV_error_spec "").1.mpr (by decide),
    (parseCSV_error_spec "x\nDeal Owner,Deal Name\nAlice,Acme").2.2.2 (by decide)⟩

/-- Witness for C1 at two concrete rows sharing a key. -/
theorem dedup_one_deal_per_key_notes_union_witness :
    ((deduplicateDeals [noteRowOne, noteRowTwo]).map (fun o => o.toDeal.dealKey)).Nodup ∧
      (∀ k, k ∈ (deduplicateDeals [noteRowOne, noteRowTwo]).map
          (fun o => o.toDeal.dealKey) ↔ k ∈ dealKeys [noteRowOne, noteRowTwo]) ∧
      (∀ o ∈ deduplicateDeals [noteRowOne, noteRowTwo],
        o.notesCanonical =
            (buildNotesCanonical (notesOf [noteRowOne, noteRowTwo]
              o.toDeal.dealKey)).canonical ∧
          o.notesCount =
            (buildNotesCanonical (notesOf [noteRowOne, noteRowTwo]
              o.toDeal.dealKey)).count) :=
  dedup_one_deal_per_key_notes_union [noteRowOne, noteRowTwo] (by decide)

end DealUpdates
